import Mathlib

/-!
Verification of the `full-text-search-query` library: a shallow embedding of
`src/parsingHelper.js`, `src/terminalNode.js`, `src/internalNode.js` and
`src/ftsQuery.js`, together with proofs about the claims of the specification.
Strings of the JavaScript source are modelled as `List Char` (the spec treats
text as a sequence of code points).  The scanner's `while` loops are modelled
as structurally recursive functions on a fuel argument that equals the number
of characters left, which is an exact bound: every loop iteration advances
the cursor by at least one position, and each loop exits at end of text.
-/

namespace FullTextSearchQuery

/-- The NUL sentinel returned by the scanner past end of text
(`nullChar` in parsingHelper.js). -/
def nullChar : Char := Char.ofNat 0

/-- The apostrophe character, written by code point to keep the embedding
readable. -/
def apostChar : Char := Char.ofNat 39

/-- Characters not allowed in unquoted search terms
(the `punctuation` constant of ftsQuery.js). -/
def punctuation : List Char := "~\"`!@#$%^&*()-+=[]\x7b\x7d\\|;:,.<>?/".toList

/-- The whitespace characters recognised by `skipWhitespace` and the term
scanner (the array `[" ", "\t", "\n", "\r"]` in the source). -/
def wsChars : List Char := [' ', '\t', '\n', '\r']

/-- Scanner state (`ParsingHelper` of parsingHelper.js): the text being parsed
and the current cursor position. -/
structure ParsingHelper where
  Text : List Char
  Index : Nat
  deriving Repr, DecidableEq

namespace ParsingHelper

/-- `EndOfText`: the cursor is at or past the end of the text. -/
def EndOfText (p : ParsingHelper) : Bool := p.Text.length ≤ p.Index

/-- `peek()`: the character at the cursor, or `nullChar` past the end. -/
def peek (p : ParsingHelper) : Char := p.Text.getD p.Index nullChar

/-- `extract(start, end)`: the substring from `start` (inclusive) to `e`
(exclusive), JavaScript `Text.substr(start, e - start)`. -/
def extract (p : ParsingHelper) (start e : Nat) : List Char :=
  (p.Text.drop start).take (e - start)

/-- `moveAhead(ahead)`: advance the cursor, clamped to the end of the text. -/
def moveAhead (p : ParsingHelper) (ahead : Nat) : ParsingHelper :=
  { p with Index := min (p.Index + ahead) p.Text.length }

@[simp] theorem moveAhead_Text (p : ParsingHelper) (n : Nat) :
    (p.moveAhead n).Text = p.Text := rfl

theorem moveAhead_index_le_length (p : ParsingHelper) (n : Nat) :
    (p.moveAhead n).Index ≤ p.Text.length := Nat.min_le_right _ _

theorem moveAhead_index_mono (p : ParsingHelper) (n : Nat)
    (h : p.Index ≤ p.Text.length) : p.Index ≤ (p.moveAhead n).Index := by
  simp [moveAhead]
  omega

theorem moveAhead_one_index (p : ParsingHelper)
    (h : p.Index < p.Text.length) : (p.moveAhead 1).Index = p.Index + 1 := by
  simp [moveAhead]
  omega

theorem not_endOfText_iff (p : ParsingHelper) :
    p.EndOfText = false ↔ p.Index < p.Text.length := by
  simp [EndOfText]

theorem peek_eq_nullChar_of_ge (p : ParsingHelper) (h : p.Text.length ≤ p.Index) :
    p.peek = nullChar := by
  simp [peek, List.getD, List.getElem?_eq_none h]

theorem peek_eq_getElem (p : ParsingHelper) (h : p.Index < p.Text.length) :
    p.peek = p.Text[p.Index] := by
  simp [peek, List.getD, List.getElem?_eq_getElem h]

theorem index_lt_of_peek_not_null (p : ParsingHelper) (h : p.peek ≠ nullChar) :
    p.Index < p.Text.length := by
  by_contra hc
  exact h (p.peek_eq_nullChar_of_ge (Nat.le_of_not_lt hc))

/-- The body of the `skipWhile(predicate)` loop, structurally recursive on a
fuel argument. -/
def skipWhileF (pred : Char → Bool) : Nat → ParsingHelper → ParsingHelper
  | 0, p => p
  | fuel + 1, p =>
      if pred p.peek && !p.EndOfText then skipWhileF pred fuel (p.moveAhead 1)
      else p

/-- `skipWhile(predicate)`: advance the cursor while the predicate holds of
the current character and the end of the text has not been reached.  A fuel
of `Text.length - Index` is exact: when it reaches zero the cursor is at the
end of the text and the source loop would stop as well. -/
def skipWhile (p : ParsingHelper) (pred : Char → Bool) : ParsingHelper :=
  skipWhileF pred (p.Text.length - p.Index) p

theorem skipWhileF_Text (pred : Char → Bool) (fuel : Nat) (p : ParsingHelper) :
    (skipWhileF pred fuel p).Text = p.Text := by
  induction fuel generalizing p with
  | zero => rfl
  | succ fuel ih =>
      rw [skipWhileF]
      split
      · rw [ih]; rfl
      · rfl

theorem skipWhileF_index_le (pred : Char → Bool) (fuel : Nat)
    (p : ParsingHelper) : p.Index ≤ (skipWhileF pred fuel p).Index := by
  induction fuel generalizing p with
  | zero => exact Nat.le_refl _
  | succ fuel ih =>
      rw [skipWhileF]
      split
      · rename_i h
        simp only [Bool.and_eq_true, Bool.not_eq_true'] at h
        have hlt : p.Index < p.Text.length := (p.not_endOfText_iff).mp h.2
        refine le_trans ?_ (ih _)
        simp [moveAhead]
        omega
      · exact Nat.le_refl _

theorem skipWhileF_index_le_length (pred : Char → Bool) (fuel : Nat)
    (p : ParsingHelper) (h : p.Index ≤ p.Text.length) :
    (skipWhileF pred fuel p).Index ≤ p.Text.length := by
  induction fuel generalizing p with
  | zero => exact h
  | succ fuel ih =>
      rw [skipWhileF]
      split
      · have := ih (p.moveAhead 1) (by simp [moveAhead])
        simpa using this
      · exact h

theorem skipWhile_Text (p : ParsingHelper) (pred : Char → Bool) :
    (p.skipWhile pred).Text = p.Text := skipWhileF_Text _ _ _

theorem skipWhile_index_le (p : ParsingHelper) (pred : Char → Bool) :
    p.Index ≤ (p.skipWhile pred).Index := skipWhileF_index_le _ _ _

theorem skipWhile_index_le_length (p : ParsingHelper) (pred : Char → Bool)
    (h : p.Index ≤ p.Text.length) :
    (p.skipWhile pred).Index ≤ p.Text.length :=
  skipWhileF_index_le_length _ _ _ h

/-- Closed form of the `skipWhile` loop: it advances the cursor past exactly
the longest prefix of the remaining text satisfying the predicate. -/
theorem skipWhile_spec (p : ParsingHelper) (pred : Char → Bool)
    (hle : p.Index ≤ p.Text.length) :
    p.skipWhile pred =
      ⟨p.Text, p.Index + ((p.Text.drop p.Index).takeWhile pred).length⟩ := by
  have main : ∀ (fuel : Nat) (q : ParsingHelper), q.Index ≤ q.Text.length →
      fuel = q.Text.length - q.Index →
      skipWhileF pred fuel q =
        ⟨q.Text, q.Index + ((q.Text.drop q.Index).takeWhile pred).length⟩ := by
    intro fuel
    induction fuel with
    | zero =>
        intro q hq hf
        have : q.Index = q.Text.length := by omega
        rw [skipWhileF, List.drop_eq_nil_of_le (le_of_eq this.symm)]
        simp
    | succ fuel ih =>
        intro q hq hf
        have hlt : q.Index < q.Text.length := by omega
        have hpeek := q.peek_eq_getElem hlt
        have heot : q.EndOfText = false := (q.not_endOfText_iff).mpr hlt
        rw [skipWhileF]
        rw [List.drop_eq_getElem_cons hlt, List.takeWhile_cons, ← hpeek]
        cases hp : pred q.peek with
        | false =>
            simp [heot, hp]
        | true =>
            rw [if_pos (by simp [hp, heot])]
            have hm : q.moveAhead 1 = ⟨q.Text, q.Index + 1⟩ := by
              simp [moveAhead]; omega
            rw [hm, ih ⟨q.Text, q.Index + 1⟩ (by simpa using hlt) (by simp; omega)]
            simp [hp, Nat.add_assoc, Nat.add_comm 1]
  exact main _ p hle rfl

theorem skipWhile_index_lt_of_pred (p : ParsingHelper) (pred : Char → Bool)
    (hp : pred p.peek = true) (he : p.EndOfText = false) :
    p.Index < (p.skipWhile pred).Index := by
  have hlt : p.Index < p.Text.length := (p.not_endOfText_iff).mp he
  rw [skipWhile]
  have hf : p.Text.length - p.Index = (p.Text.length - p.Index - 1) + 1 := by
    omega
  rw [hf, skipWhileF, if_pos (by simp [hp, he])]
  calc p.Index < (p.moveAhead 1).Index := by simp [moveAhead]; omega
    _ ≤ _ := skipWhileF_index_le _ _ _

/-- The body of the `skipWhitespace()` loop.  The source loops on the
whitespace test alone; it stops at the end of the text because `peek`
returns `nullChar` there, which is not whitespace. -/
def skipWhitespaceF : Nat → ParsingHelper → ParsingHelper
  | 0, p => p
  | fuel + 1, p =>
      if wsChars.contains p.peek then skipWhitespaceF fuel (p.moveAhead 1)
      else p

/-- `skipWhitespace()`: advance the cursor past whitespace characters. -/
def skipWhitespace (p : ParsingHelper) : ParsingHelper :=
  skipWhitespaceF (p.Text.length - p.Index) p

theorem skipWhitespaceF_Text (fuel : Nat) (p : ParsingHelper) :
    (skipWhitespaceF fuel p).Text = p.Text := by
  induction fuel generalizing p with
  | zero => rfl
  | succ fuel ih =>
      rw [skipWhitespaceF]
      split
      · rw [ih]; rfl
      · rfl

theorem skipWhitespaceF_index_le (fuel : Nat) (p : ParsingHelper) :
    p.Index ≤ (skipWhitespaceF fuel p).Index := by
  induction fuel generalizing p with
  | zero => exact Nat.le_refl _
  | succ fuel ih =>
      rw [skipWhitespaceF]
      split
      · rename_i h
        have hne : p.peek ≠ nullChar := by
          intro hn; rw [hn] at h; exact absurd h (by decide)
        have hlt := p.index_lt_of_peek_not_null hne
        refine le_trans ?_ (ih _)
        simp [moveAhead]
        omega
      · exact Nat.le_refl _

theorem skipWhitespaceF_index_le_length (fuel : Nat) (p : ParsingHelper)
    (h : p.Index ≤ p.Text.length) :
    (skipWhitespaceF fuel p).Index ≤ p.Text.length := by
  induction fuel generalizing p with
  | zero => exact h
  | succ fuel ih =>
      rw [skipWhitespaceF]
      split
      · have := ih (p.moveAhead 1) (by simp [moveAhead])
        simpa using this
      · exact h

theorem skipWhitespace_Text (p : ParsingHelper) :
    p.skipWhitespace.Text = p.Text := skipWhitespaceF_Text _ _

theorem skipWhitespace_index_le (p : ParsingHelper) :
    p.Index ≤ p.skipWhitespace.Index := skipWhitespaceF_index_le _ _

theorem skipWhitespace_index_le_length (p : ParsingHelper)
    (h : p.Index ≤ p.Text.length) :
    p.skipWhitespace.Index ≤ p.Text.length :=
  skipWhitespaceF_index_le_length _ _ h

/-- After `skipWhitespace` the current character is not whitespace. -/
theorem skipWhitespace_peek (p : ParsingHelper) :
    wsChars.contains p.skipWhitespace.peek = false := by
  have main : ∀ (fuel : Nat) (q : ParsingHelper),
      q.Text.length - q.Index ≤ fuel →
      wsChars.contains (skipWhitespaceF fuel q).peek = false := by
    intro fuel
    induction fuel with
    | zero =>
        intro q hq
        have : q.Text.length ≤ q.Index := by omega
        rw [skipWhitespaceF, q.peek_eq_nullChar_of_ge this]
        decide
    | succ fuel ih =>
        intro q hq
        rw [skipWhitespaceF]
        split
        · rename_i hws
          have hne : q.peek ≠ nullChar := by
            intro hn; rw [hn] at hws; exact absurd hws (by decide)
          have hlt := q.index_lt_of_peek_not_null hne
          apply ih
          simp [moveAhead]
          omega
        · rename_i hws
          simpa using hws
  exact main _ p (Nat.le_refl _)

/-- Closed form of `skipWhitespace`. -/
theorem skipWhitespace_spec (p : ParsingHelper) (hle : p.Index ≤ p.Text.length) :
    p.skipWhitespace =
      ⟨p.Text,
        p.Index +
          ((p.Text.drop p.Index).takeWhile (fun c => wsChars.contains c)).length⟩ := by
  have main : ∀ (fuel : Nat) (q : ParsingHelper), q.Index ≤ q.Text.length →
      fuel = q.Text.length - q.Index →
      skipWhitespaceF fuel q =
        ⟨q.Text,
          q.Index +
            ((q.Text.drop q.Index).takeWhile (fun c => wsChars.contains c)).length⟩ := by
    intro fuel
    induction fuel with
    | zero =>
        intro q hq hf
        have : q.Index = q.Text.length := by omega
        rw [skipWhitespaceF, List.drop_eq_nil_of_le (le_of_eq this.symm)]
        simp
    | succ fuel ih =>
        intro q hq hf
        have hlt : q.Index < q.Text.length := by omega
        have hpeek := q.peek_eq_getElem hlt
        rw [skipWhitespaceF]
        rw [List.drop_eq_getElem_cons hlt, List.takeWhile_cons, ← hpeek]
        cases hp : wsChars.contains q.peek with
        | false => simp [hp]
        | true =>
            rw [if_pos (by simp [hp])]
            have hm : q.moveAhead 1 = ⟨q.Text, q.Index + 1⟩ := by
              simp [moveAhead]; omega
            rw [hm, ih ⟨q.Text, q.Index + 1⟩ (by simpa using hlt) (by simp; omega)]
            simp [hp, Nat.add_assoc, Nat.add_comm 1]
  exact main _ p hle rfl

/-- `parseWhile(predicate)`: like `skipWhile` but returns the skipped span
(the source duplicates the `skipWhile` loop verbatim). -/
def parseWhile (p : ParsingHelper) (pred : Char → Bool) :
    List Char × ParsingHelper :=
  let q := p.skipWhile pred
  (q.extract p.Index q.Index, q)

/-- Closed form of `parseWhile`: it returns the longest prefix of the
remaining text satisfying the predicate and advances the cursor past it. -/
theorem parseWhile_spec (p : ParsingHelper) (pred : Char → Bool)
    (hle : p.Index ≤ p.Text.length) :
    p.parseWhile pred =
      ((p.Text.drop p.Index).takeWhile pred,
        ⟨p.Text, p.Index + ((p.Text.drop p.Index).takeWhile pred).length⟩) := by
  rw [parseWhile]
  rw [skipWhile_spec p pred hle]
  simp only [extract]
  congr 1
  rw [Nat.add_sub_cancel_left]
  exact (List.prefix_iff_eq_take.mp (List.takeWhile_prefix pred)).symm

end ParsingHelper

/-! ## Expression tree node model (terminalNode.js / internalNode.js) -/

/-- The form of a search term (`TermForm` in types/index.d.ts). -/
inductive TermForm where
  | Inflectional
  | Thesaurus
  | Literal
  deriving Repr, DecidableEq

/-- Conjunction joining two subexpressions (`ConjunctionType`). -/
inductive ConjunctionType where
  | And
  | Or
  | Near
  deriving Repr, DecidableEq

/-- The `"And"`/`"Or"`/`"Near"` strings upper-cased, as rendered by
`InternalNode.toString` via `toUpperCase()`. -/
def ConjunctionType.toUpperCase : ConjunctionType → List Char
  | .And => "AND".toList
  | .Or => "OR".toList
  | .Near => "NEAR".toList

mutual
/-- Expression tree nodes: `TerminalNode` and `InternalNode`.  Fields that the
JavaScript constructors initialise to `null` are modelled as `Option`s, and a
possibly-null reference to a child node as a `NodeRef`. -/
inductive Node where
  | terminal (term : List Char) (termForm : Option TermForm)
      (exclude : Bool) (grouped : Bool)
  | internal (leftChild rightChild : NodeRef)
      (conjunction : Option ConjunctionType)
      (exclude : Bool) (grouped : Bool)
  deriving Repr

/-- A possibly-null reference to an expression tree node (JavaScript object
references are nullable; the parser and normaliser use `null` as the explicit
empty-tree sentinel). -/
inductive NodeRef where
  | null
  | node (n : Node)
  deriving Repr
end

/-- The shared `exclude` flag of either node variant. -/
def Node.exclude : Node → Bool
  | .terminal _ _ e _ => e
  | .internal _ _ _ e _ => e

/-- The shared `grouped` flag of either node variant. -/
def Node.grouped : Node → Bool
  | .terminal _ _ _ g => g
  | .internal _ _ _ _ g => g

/-- Assignment `node.grouped = group` performed by `addNode`. -/
def Node.setGrouped : Node → Bool → Node
  | .terminal t f e _, g => .terminal t f e g
  | .internal l r c e _, g => .internal l r c e g

/-- Truthiness of a node reference (`if (node)` in the source). -/
def NodeRef.isNull : NodeRef → Bool
  | .null => true
  | .node _ => false

mutual
/-- `toString()` of both node classes.  A terminal renders according to its
form (empty for an unknown/absent form); an internal node renders its
children around the upper-cased conjunction, parenthesised when grouped,
falling back to a single child when the other is absent. -/
def Node.toString : Node → List Char
  | .terminal term form e _ =>
      match form with
      | some TermForm.Inflectional =>
          (if e then "NOT ".toList else []) ++
            "FORMSOF(INFLECTIONAL, ".toList ++ term ++ ")".toList
      | some TermForm.Thesaurus =>
          (if e then "NOT ".toList else []) ++
            "FORMSOF(THESAURUS, ".toList ++ term ++ ")".toList
      | some TermForm.Literal =>
          (if e then "NOT ".toList else []) ++
            "\"".toList ++ term ++ "\"".toList
      | none => []
  | .internal .null .null _ _ _ => []
  | .internal .null (.node rc) _ _ _ => rc.toString
  | .internal (.node lc) .null _ _ _ => lc.toString
  | .internal (.node lc) (.node rc) conj _ g =>
      (if g then "(".toList else []) ++ lc.toString ++ " ".toList ++
        (match conj with
         | some c => c.toUpperCase ++ " ".toList
         | none => []) ++
        rc.toString ++ (if g then ")".toList else [])
end

mutual
/-- Well-formedness of nodes produced by the parser: every terminal carries a
term form and a nonempty term. -/
def Node.parsedWF : Node → Prop
  | .terminal term tf _ _ => tf.isSome = true ∧ term ≠ []
  | .internal l r _ _ _ => l.parsedWF ∧ r.parsedWF

/-- Well-formedness of a possibly-null parser result. -/
def NodeRef.parsedWF : NodeRef → Prop
  | .null => True
  | .node n => n.parsedWF
end

/-- Well-formedness of nodes surviving `fixUpExpressionTree`: terminals are
as in `Node.parsedWF`, and every internal node has both children present. -/
def Node.fixedWF : Node → Prop
  | .terminal term tf _ _ => tf.isSome = true ∧ term ≠ []
  | .internal (.node a) (.node b) _ _ _ => a.fixedWF ∧ b.fixedWF
  | .internal _ _ _ _ _ => False

/-- A well-formed surviving node renders to a nonempty string: terminals
print at least their form keyword or quotes, and internal nodes print the
space between their two children. -/
theorem Node.fixedWF_toString_ne (n : Node) (h : n.fixedWF) :
    n.toString ≠ [] := by
  match n with
  | .terminal term tf e g =>
      obtain ⟨hf, -⟩ := h
      match tf with
      | some TermForm.Inflectional => simp [Node.toString]
      | some TermForm.Thesaurus => simp [Node.toString]
      | some TermForm.Literal => simp [Node.toString]
      | none => simp at hf
  | .internal .null .null _ _ _ => simp [Node.fixedWF] at h
  | .internal .null (.node rc) _ _ _ => simp [Node.fixedWF] at h
  | .internal (.node lc) .null _ _ _ => simp [Node.fixedWF] at h
  | .internal (.node lc) (.node rc) conj e g =>
      intro hcontra
      cases conj with
      | none =>
          have hunfold : Node.toString (.internal (.node lc) (.node rc) none e g) =
              (if g then "(".toList else []) ++ lc.toString ++ " ".toList ++ [] ++
                rc.toString ++ (if g then ")".toList else []) := rfl
          rw [hunfold] at hcontra
          simp at hcontra
      | some c =>
          have hunfold : Node.toString (.internal (.node lc) (.node rc) (some c) e g) =
              (if g then "(".toList else []) ++ lc.toString ++ " ".toList ++
                (c.toUpperCase ++ " ".toList) ++
                rc.toString ++ (if g then ")".toList else []) := rfl
          rw [hunfold] at hcontra
          simp at hcontra

/-! ## The query transformer (ftsQuery.js) -/

/-- Whitespace as removed by JavaScript `String.prototype.trim` (restricted to
the ASCII whitespace characters, which are the only ones relevant to the
grammar). -/
def jsWhitespace (c : Char) : Bool :=
  (wsChars ++ [Char.ofNat 11, Char.ofNat 12]).contains c

/-- JavaScript `term.trim()`. -/
def jsTrim (l : List Char) : List Char :=
  ((l.dropWhile jsWhitespace).reverse.dropWhile jsWhitespace).reverse

namespace FTSQuery

/-- `isStopWord(word)`: exact membership test in the injected stop-word
collection (`stopWords.indexOf(word) !== -1`). -/
def isStopWord (stopWords : List (List Char)) (word : List Char) : Bool :=
  stopWords.contains word

/-- `addNode(root, node, conjunction, group)`: append `node` to the tree,
marking its `grouped` flag, making a fresh `InternalNode` root when a root
already exists.  The omitted `group` argument of the source is `undefined`,
i.e. falsy, modelled as `false` at the call sites. -/
def addNode (root nodeArg : NodeRef) (conjunction : ConjunctionType)
    (group : Bool) : NodeRef :=
  match nodeArg with
  | .null => root
  | .node n =>
      let n := n.setGrouped group
      match root with
      | .node r =>
          .node (Node.internal (.node r) (.node n) (some conjunction) false false)
      | .null => .node n

/-- `addNodeByString(root, term, termForm, termExclude, conjunction)`: create
a `TerminalNode` and append it, unless the term is empty or a stop word. -/
def addNodeByString (stopWords : List (List Char)) (root : NodeRef)
    (term : List Char) (termForm : TermForm) (termExclude : Bool)
    (conjunction : ConjunctionType) : NodeRef :=
  if 0 < term.length && !(isStopWord stopWords term) then
    addNode root (.node (Node.terminal term (some termForm) termExclude false))
      conjunction false
  else root

/-- `isInvalidWithNear(node)`: true unless the node is a `TerminalNode` whose
`termForm` is `Literal` (`!(node instanceof TerminalNode) ||
node.termForm !== "Literal"`; a null node is not an instance). -/
def isInvalidWithNear (node : NodeRef) : Bool :=
  match node with
  | .node (Node.terminal _ tf _ _) => !(tf == some TermForm.Literal)
  | _ => true

/-- `isInvalidWithOr(node)`: true for an absent node or one whose `exclude`
flag is set (`!node || node.exclude`). -/
def isInvalidWithOr (node : NodeRef) : Bool :=
  match node with
  | .null => true
  | .node n => n.exclude

/-- `fixUpExpressionTree(node, isRoot)`: the post-order normalisation pass.
Children are fixed up first (as non-root, non-grouped context), `Near`
conjunctions are demoted to `And` when an operand is invalid, invalid `Or`
operands are discarded, eliminated children collapse the node, the `exclude`
flag is recomputed with a left-exclude swap, and finally a grouped-or-root
node that is pure negation is eliminated. -/
def fixUpExpressionTree : NodeRef → Bool → NodeRef
  | .null, _ => .null
  | .node (Node.terminal term tf e g), isRoot =>
      if (g || isRoot) && e then .null else .node (Node.terminal term tf e g)
  | .node (Node.internal l r conj _e g), isRoot =>
      let l1 := fixUpExpressionTree l false
      let r1 := fixUpExpressionTree r false
      let adj : NodeRef × NodeRef × Option ConjunctionType :=
        if conj = some ConjunctionType.Near then
          (l1, r1,
            if isInvalidWithNear l1 || isInvalidWithNear r1 then
              some ConjunctionType.And
            else conj)
        else if conj = some ConjunctionType.Or then
          ((if isInvalidWithOr l1 then .null else l1),
           (if isInvalidWithOr r1 then .null else r1), conj)
        else (l1, r1, conj)
      match adj with
      | (.null, .null, _) => .null
      | (.null, .node rc, _) =>
          if (rc.grouped || isRoot) && rc.exclude then .null else .node rc
      | (.node lc, .null, _) =>
          if (lc.grouped || isRoot) && lc.exclude then .null else .node lc
      | (.node lc, .node rc, conj2) =>
          let e2 := lc.exclude && rc.exclude
          let lc2 := if !e2 && lc.exclude then rc else lc
          let rc2 := if !e2 && lc.exclude then lc else rc
          if (g || isRoot) && e2 then .null
          else .node (Node.internal (.node lc2) (.node rc2) conj2 e2 g)

/-- The body of `extractBlock`'s scanning loop: track delimiter depth, not
counting delimiters within quoted text, and stop at the closing delimiter
of depth zero (or at end of text).  Structurally recursive on a fuel that
bounds the remaining characters (each iteration advances the cursor). -/
def extractBlockLoopF (openChar closeChar : Char) :
    Nat → Nat → ParsingHelper → ParsingHelper
  | 0, _, p => p
  | fuel + 1, depth, p =>
      if p.EndOfText then p
      else
        let ch := p.peek
        if ch = openChar then
          extractBlockLoopF openChar closeChar fuel (depth + 1) (p.moveAhead 1)
        else if ch = closeChar then
          if depth = 1 then p
          else extractBlockLoopF openChar closeChar fuel (depth - 1) (p.moveAhead 1)
        else if ch = '"' ∨ ch = apostChar then
          extractBlockLoopF openChar closeChar fuel depth
            ((((p.moveAhead 1).skipWhile (fun c => c != ch))).moveAhead 1)
        else extractBlockLoopF openChar closeChar fuel depth (p.moveAhead 1)

/-- `extractBlock(parser, openChar, closeChar)`: skip the opening delimiter,
scan to the matching closing delimiter, and return the characters strictly
between them together with the final parser state. -/
def extractBlock (p : ParsingHelper) (openChar closeChar : Char) :
    List Char × ParsingHelper :=
  let q := p.moveAhead 1
  let start := q.Index
  let r := extractBlockLoopF openChar closeChar (q.Text.length - q.Index) 1 q
  (r.extract start r.Index, r)

theorem getD_drop (l : List Char) (n k : Nat) (d : Char) :
    (l.drop n).getD k d = l.getD (n + k) d := by
  simp [List.getD, List.getElem?_drop]

/-- Modelled from the spec (§4.3, balanced-block extraction), as the
reference for the refinement proof below: the distance from the character
after the opening delimiter to its matching closing delimiter at the same
nesting depth.  An opening delimiter increments depth, a closing delimiter
decrements it and ends the scan at depth zero, text between a quote
character and its next occurrence is transparent to depth counting (the
scan resumes after the closing quote), and unmatched blocks consume to the
end of the text. -/
def specBlockScan (oc cc : Char) : Nat → List Char → Nat
  | _, [] => 0
  | depth, c :: rest =>
      if c = oc then 1 + specBlockScan oc cc (depth + 1) rest
      else if c = cc then
        if depth = 1 then 0 else 1 + specBlockScan oc cc (depth - 1) rest
      else if c = '"' ∨ c = apostChar then
        if (rest.takeWhile (fun d => d != c)).length < rest.length then
          1 + ((rest.takeWhile (fun d => d != c)).length + 1) +
            specBlockScan oc cc depth
              (rest.drop ((rest.takeWhile (fun d => d != c)).length + 1))
        else 1 + rest.length
      else 1 + specBlockScan oc cc depth rest
termination_by _ l => l.length
decreasing_by
  all_goals simp [List.length_drop]
  all_goals omega

/-- The spec-modelled scan never runs past the end of the text. -/
theorem specBlockScan_le (oc cc : Char) (depth : Nat) (l : List Char) :
    specBlockScan oc cc depth l ≤ l.length := by
  induction depth, l using specBlockScan.induct oc cc with
  | case1 d => simp [specBlockScan]
  | case2 depth rest ih =>
      rw [specBlockScan, if_pos rfl]
      simp only [List.length_cons]
      omega
  | case3 rest hccoc =>
      rw [specBlockScan, if_neg hccoc, if_pos rfl, if_pos rfl]
      simp
  | case4 depth rest hd hccoc ih =>
      rw [specBlockScan, if_neg hccoc, if_pos rfl, if_neg hd]
      simp only [List.length_cons]
      omega
  | case5 depth c rest hc hcc hq hk ih =>
      rw [specBlockScan, if_neg hc, if_neg hcc, if_pos hq, if_pos hk]
      have hdl : (rest.drop ((rest.takeWhile (fun d => d != c)).length + 1)).length =
          rest.length - ((rest.takeWhile (fun d => d != c)).length + 1) := by
        simp
      rw [hdl] at ih
      simp only [List.length_cons]
      omega
  | case6 depth c rest hc hcc hq hk =>
      rw [specBlockScan, if_neg hc, if_neg hcc, if_pos hq, if_neg hk]
      simp only [List.length_cons]
      omega
  | case7 depth c rest hc hcc hq ih =>
      rw [specBlockScan, if_neg hc, if_neg hcc, if_neg hq]
      simp only [List.length_cons]
      omega

/-- The spec-modelled scan stops either at the end of the text or exactly on
the matching closing delimiter. -/
theorem specBlockScan_stop (oc cc : Char) (depth : Nat) (l : List Char) :
    specBlockScan oc cc depth l = l.length ∨
      l.getD (specBlockScan oc cc depth l) nullChar = cc := by
  induction depth, l using specBlockScan.induct oc cc with
  | case1 d => simp [specBlockScan]
  | case2 depth rest ih =>
      rw [specBlockScan, if_pos rfl]
      rcases ih with h | h
      · left
        rw [h, List.length_cons]
        omega
      · right
        rw [show (1 : Nat) + specBlockScan oc cc (depth + 1) rest =
            specBlockScan oc cc (depth + 1) rest + 1 from by omega]
        exact h
  | case3 rest hccoc =>
      rw [specBlockScan, if_neg hccoc, if_pos rfl, if_pos rfl]
      right
      rfl
  | case4 depth rest hd hccoc ih =>
      rw [specBlockScan, if_neg hccoc, if_pos rfl, if_neg hd]
      rcases ih with h | h
      · left
        rw [h, List.length_cons]
        omega
      · right
        rw [show (1 : Nat) + specBlockScan oc cc (depth - 1) rest =
            specBlockScan oc cc (depth - 1) rest + 1 from by omega]
        exact h
  | case5 depth c rest hc hcc hq hk ih =>
      rw [specBlockScan, if_neg hc, if_neg hcc, if_pos hq, if_pos hk]
      rcases ih with h | h
      · left
        rw [h]
        simp only [List.length_drop, List.length_cons]
        omega
      · right
        rw [show (1 : Nat) + ((rest.takeWhile (fun d => d != c)).length + 1) +
            specBlockScan oc cc depth
              (rest.drop ((rest.takeWhile (fun d => d != c)).length + 1)) =
            (((rest.takeWhile (fun d => d != c)).length + 1) +
              specBlockScan oc cc depth
                (rest.drop ((rest.takeWhile (fun d => d != c)).length + 1))) + 1
            from by omega]
        show rest.getD _ nullChar = cc
        rw [← getD_drop]
        exact h
  | case6 depth c rest hc hcc hq hk =>
      rw [specBlockScan, if_neg hc, if_neg hcc, if_pos hq, if_neg hk]
      left
      rw [List.length_cons]
      omega
  | case7 depth c rest hc hcc hq ih =>
      rw [specBlockScan, if_neg hc, if_neg hcc, if_neg hq]
      rcases ih with h | h
      · left
        rw [h, List.length_cons]
        omega
      · right
        rw [show (1 : Nat) + specBlockScan oc cc depth rest =
            specBlockScan oc cc depth rest + 1 from by omega]
        exact h

/-- Refinement: the source's block-extraction loop lands exactly where the
spec-modelled scan says the matching closing delimiter is. -/
theorem extractBlockLoopF_spec (oc cc : Char) :
    ∀ (fuel depth : Nat) (t : List Char) (i : Nat),
      i ≤ t.length → t.length - i ≤ fuel → 1 ≤ depth →
      extractBlockLoopF oc cc fuel depth ⟨t, i⟩ =
        ⟨t, i + specBlockScan oc cc depth (t.drop i)⟩ := by
  intro fuel
  induction fuel with
  | zero =>
      intro depth t i hle hf hd
      have hi : t.length ≤ i := by omega
      rw [extractBlockLoopF, List.drop_eq_nil_of_le hi]
      simp [specBlockScan]
  | succ fuel ih =>
      intro depth t i hle hf hd
      rcases Nat.lt_or_ge i t.length with hlt | hge
      · rw [extractBlockLoopF,
          if_neg (by simp [ParsingHelper.EndOfText]; omega)]
        simp only []
        have hpeek : (⟨t, i⟩ : ParsingHelper).peek = t[i] :=
          ParsingHelper.peek_eq_getElem _ hlt
        have hm1 : (⟨t, i⟩ : ParsingHelper).moveAhead 1 = ⟨t, i + 1⟩ := by
          simp [ParsingHelper.moveAhead]
          omega
        rw [hpeek, hm1, List.drop_eq_getElem_cons hlt, specBlockScan]
        by_cases ho : t[i] = oc
        · simp only [if_pos ho]
          rw [ih (depth + 1) t (i + 1) (by omega) (by omega) (by omega)]
          rw [show i + (1 + specBlockScan oc cc (depth + 1) (t.drop (i + 1))) =
            (i + 1) + specBlockScan oc cc (depth + 1) (t.drop (i + 1)) from by omega]
        · simp only [if_neg ho]
          by_cases hc2 : t[i] = cc
          · simp only [if_pos hc2]
            by_cases hd1 : depth = 1
            · simp only [if_pos hd1]
              simp
            · simp only [if_neg hd1]
              rw [ih (depth - 1) t (i + 1) (by omega) (by omega) (by omega)]
              rw [show i + (1 + specBlockScan oc cc (depth - 1) (t.drop (i + 1))) =
                (i + 1) + specBlockScan oc cc (depth - 1) (t.drop (i + 1)) from by
                omega]
          · simp only [if_neg hc2]
            by_cases hq : t[i] = '"' ∨ t[i] = apostChar
            · simp only [if_pos hq]
              rw [ParsingHelper.skipWhile_spec ⟨t, i + 1⟩
                (fun c => c != t[i]) (by simpa using hlt)]
              simp only []
              have hkle : ((t.drop (i + 1)).takeWhile (fun c => c != t[i])).length ≤
                  t.length - (i + 1) := by
                have := (List.takeWhile_prefix
                  (l := t.drop (i + 1)) (fun c => c != t[i])).length_le
                simpa using this
              by_cases hkfull :
                  ((t.drop (i + 1)).takeWhile (fun c => c != t[i])).length <
                    (t.drop (i + 1)).length
              · simp only [if_pos hkfull]
                have hmin : (⟨t, (i + 1) +
                    ((t.drop (i + 1)).takeWhile (fun c => c != t[i])).length⟩ :
                      ParsingHelper).moveAhead 1 =
                    ⟨t, i + 1 +
                      ((t.drop (i + 1)).takeWhile (fun c => c != t[i])).length + 1⟩ := by
                  simp only [List.length_drop] at hkfull
                  simp [ParsingHelper.moveAhead]
                  omega
                rw [hmin]
                rw [ih depth t
                  (i + 1 + ((t.drop (i + 1)).takeWhile (fun c => c != t[i])).length + 1)
                  (by simp only [List.length_drop] at hkfull; omega)
                  (by omega) hd]
                rw [List.drop_drop]
                rw [show (i + 1) +
                    (((t.drop (i + 1)).takeWhile (fun c => c != t[i])).length + 1) =
                    i + 1 + ((t.drop (i + 1)).takeWhile (fun c => c != t[i])).length + 1
                  from by omega]
                rw [show i + (1 + (((t.drop (i + 1)).takeWhile (fun c => c != t[i])).length + 1) +
                    specBlockScan oc cc depth
                      (t.drop (i + 1 + ((t.drop (i + 1)).takeWhile (fun c => c != t[i])).length + 1))) =
                    i + 1 + ((t.drop (i + 1)).takeWhile (fun c => c != t[i])).length + 1 +
                    specBlockScan oc cc depth
                      (t.drop (i + 1 + ((t.drop (i + 1)).takeWhile (fun c => c != t[i])).length + 1))
                  from by omega]
              · simp only [if_neg hkfull]
                simp only [List.length_drop] at hkfull hkle
                have hkeq : ((t.drop (i + 1)).takeWhile (fun c => c != t[i])).length =
                    t.length - (i + 1) := by omega
                have hmin : (⟨t, (i + 1) +
                    ((t.drop (i + 1)).takeWhile (fun c => c != t[i])).length⟩ :
                      ParsingHelper).moveAhead 1 = ⟨t, t.length⟩ := by
                  rw [hkeq]
                  simp [ParsingHelper.moveAhead]
                  omega
                rw [hmin]
                rw [ih depth t t.length (Nat.le_refl _) (by omega) hd]
                rw [List.drop_length]
                rw [show specBlockScan oc cc depth [] = 0 from by simp [specBlockScan]]
                congr 1
                simp only [List.length_drop]
                omega
            · simp only [if_neg hq]
              rw [ih depth t (i + 1) (by omega) (by omega) hd]
              rw [show i + (1 + specBlockScan oc cc depth (t.drop (i + 1))) =
                (i + 1) + specBlockScan oc cc depth (t.drop (i + 1)) from by omega]
      · rw [extractBlockLoopF, if_pos (by simp [ParsingHelper.EndOfText]; omega),
          List.drop_eq_nil_of_le hge]
        simp [specBlockScan]

/-- Case-insensitive whole-word keyword test, modelling the
`/^and$/i`-style regexes of the source (ASCII case folding). -/
def keywordTest (kw : List Char) (term : List Char) : Bool :=
  term.map Char.toLower == kw

/-- The per-cycle mutable state of `parseNode`'s scanning loop. -/
structure ParseState where
  conjunction : ConjunctionType
  termForm : TermForm
  termExclude : Bool
  resetState : Bool
  root : NodeRef

/-- Outcome of one iteration of the scanning loop: the loop exits returning
the accumulated root, continues with new scanner/parse state, or must
recursively parse an extracted block before continuing. -/
inductive StepResult where
  | done (root : NodeRef)
  | next (p : ParsingHelper) (st : ParseState)
  | block (blockText : List Char) (blockConj : ConjunctionType) (group : Bool)
      (p : ParsingHelper) (st : ParseState)

/-- One iteration of `parseNode`'s `while (!parser.EndOfText)` loop, including
the leading reset of the per-cycle modifiers and the whitespace skip. -/
def parseStep (stopWords : List (List Char))
    (defaultConjunction : ConjunctionType) (p : ParsingHelper)
    (st : ParseState) : StepResult :=
  if p.EndOfText then .done st.root else
  let st := if st.resetState then
      { st with conjunction := defaultConjunction,
                termForm := TermForm.Inflectional,
                termExclude := false, resetState := false }
    else st
  let p := p.skipWhitespace
  if p.EndOfText then .done st.root else
  let ch := p.peek
  if !(punctuation.contains ch) then
    -- Parse this query term, with an optional trailing wildcard.
    let tp := p.parseWhile (fun c => !(punctuation.contains c) && !(wsChars.contains c))
    let term := tp.1
    let p := tp.2
    let wc := p.peek == '*'
    let term := if wc then term ++ [p.peek] else term
    let p := if wc then p.moveAhead 1 else p
    let st := if wc then { st with termForm := TermForm.Literal } else st
    if keywordTest "and".toList term then
      .next p { st with conjunction := ConjunctionType.And }
    else if keywordTest "or".toList term then
      .next p { st with conjunction := ConjunctionType.Or }
    else if keywordTest "near".toList term then
      .next p { st with conjunction := ConjunctionType.Near }
    else if keywordTest "not".toList term then
      .next p { st with termExclude := true }
    else
      .next p { st with
        root := addNodeByString stopWords st.root term st.termForm
          st.termExclude st.conjunction,
        resetState := true }
  else
    if ch = '"' ∨ ch = apostChar then
      let st := { st with termForm := TermForm.Literal }
      let p := p.moveAhead 1
      let tp := p.parseWhile (fun c => c != ch)
      let st := { st with
        root := addNodeByString stopWords st.root (jsTrim tp.1) st.termForm
          st.termExclude st.conjunction,
        resetState := true }
      .next (tp.2.moveAhead 1) st
    else if ch = '(' then
      let bp := extractBlock p '(' ')'
      .block bp.1 defaultConjunction true (bp.2.moveAhead 1)
        { st with resetState := true }
    else if ch = '<' then
      let bp := extractBlock p '<' '>'
      .block bp.1 ConjunctionType.Near false (bp.2.moveAhead 1)
        { st with resetState := true }
    else if ch = '-' then .next (p.moveAhead 1) { st with termExclude := true }
    else if ch = '+' then
      .next (p.moveAhead 1) { st with termForm := TermForm.Literal }
    else if ch = '~' then
      .next (p.moveAhead 1) { st with termForm := TermForm.Thesaurus }
    else .next (p.moveAhead 1) st

/-- The initial loop state of a `parseNode` call. -/
def initState (defaultConjunction : ConjunctionType) : ParseState :=
  { conjunction := defaultConjunction, termForm := TermForm.Inflectional,
    termExclude := false, resetState := true, root := .null }

/-- The recursive scanning loop of `parseNode`, made total with a fuel
parameter: `none` means the fuel ran out (which, as proved below, cannot
happen with fuel exceeding the text length).  A `(`/`<` block recursively
parses the extracted text with a fresh scanner. -/
def parseNodeAux (stopWords : List (List Char)) :
    Nat → ConjunctionType → ParsingHelper → ParseState → Option NodeRef
  | 0, _, _, _ => none
  | Nat.succ fuel, dc, p, st =>
      match parseStep stopWords dc p st with
      | .done r => some r
      | .next p' st' => parseNodeAux stopWords fuel dc p' st'
      | .block b bdc grp p' st' =>
          match parseNodeAux stopWords fuel bdc ⟨b, 0⟩ (initState bdc) with
          | none => none
          | some child =>
              parseNodeAux stopWords fuel dc p'
                { st' with root := addNode st'.root child st'.conjunction grp }

theorem extractBlockLoopF_Text (oc cc : Char) (fuel : Nat) :
    ∀ (depth : Nat) (p : ParsingHelper),
      (extractBlockLoopF oc cc fuel depth p).Text = p.Text := by
  induction fuel with
  | zero => intro depth p; rfl
  | succ fuel ih =>
      intro depth p
      rw [extractBlockLoopF]
      by_cases he : p.EndOfText = true
      · rw [if_pos he]
      · rw [if_neg he]
        simp only []
        by_cases ho : p.peek = oc
        · rw [if_pos ho, ih, ParsingHelper.moveAhead_Text]
        · rw [if_neg ho]
          by_cases hc : p.peek = cc
          · rw [if_pos hc]
            by_cases hd : depth = 1
            · rw [if_pos hd]
            · rw [if_neg hd, ih, ParsingHelper.moveAhead_Text]
          · rw [if_neg hc]
            by_cases hq : p.peek = '"' ∨ p.peek = apostChar
            · rw [if_pos hq, ih, ParsingHelper.moveAhead_Text,
                ParsingHelper.skipWhile_Text, ParsingHelper.moveAhead_Text]
            · rw [if_neg hq, ih, ParsingHelper.moveAhead_Text]

theorem extractBlockLoopF_index_le (oc cc : Char) (fuel : Nat) :
    ∀ (depth : Nat) (p : ParsingHelper), p.Index ≤ p.Text.length →
      p.Index ≤ (extractBlockLoopF oc cc fuel depth p).Index ∧
        (extractBlockLoopF oc cc fuel depth p).Index ≤ p.Text.length := by
  induction fuel with
  | zero => intro depth p h; exact ⟨Nat.le_refl _, h⟩
  | succ fuel ih =>
      intro depth p h
      rw [extractBlockLoopF]
      by_cases he : p.EndOfText = true
      · rw [if_pos he]; exact ⟨Nat.le_refl _, h⟩
      · rw [if_neg he]
        simp only []
        have hlt : p.Index < p.Text.length := (p.not_endOfText_iff).mp (by
          simpa using he)
        have hm1 : (p.moveAhead 1).Index = p.Index + 1 := by
          simp [ParsingHelper.moveAhead]; omega
        have hm1le : (p.moveAhead 1).Index ≤ (p.moveAhead 1).Text.length := by
          rw [ParsingHelper.moveAhead_Text]; omega
        by_cases ho : p.peek = oc
        · rw [if_pos ho]
          have := ih (depth + 1) (p.moveAhead 1) hm1le
          rw [ParsingHelper.moveAhead_Text] at this
          omega
        · rw [if_neg ho]
          by_cases hc : p.peek = cc
          · rw [if_pos hc]
            by_cases hd : depth = 1
            · rw [if_pos hd]; exact ⟨Nat.le_refl _, h⟩
            · rw [if_neg hd]
              have := ih (depth - 1) (p.moveAhead 1) hm1le
              rw [ParsingHelper.moveAhead_Text] at this
              omega
          · rw [if_neg hc]
            by_cases hq : p.peek = '"' ∨ p.peek = apostChar
            · rw [if_pos hq]
              -- quoted text: skip to the closing quote and past it
              have hsT : ((p.moveAhead 1).skipWhile (fun c => c != p.peek)).Text
                  = p.Text := by
                rw [ParsingHelper.skipWhile_Text, ParsingHelper.moveAhead_Text]
              have hsI : (p.moveAhead 1).Index ≤
                  ((p.moveAhead 1).skipWhile (fun c => c != p.peek)).Index :=
                ParsingHelper.skipWhile_index_le _ _
              have hfin := ih depth
                ((((p.moveAhead 1).skipWhile (fun c => c != p.peek))).moveAhead 1)
                (by rw [ParsingHelper.moveAhead_Text]
                    exact ParsingHelper.moveAhead_index_le_length _ _)
              rw [ParsingHelper.moveAhead_Text, hsT] at hfin
              have hmin : ((((p.moveAhead 1).skipWhile (fun c => c != p.peek))).moveAhead 1).Index =
                  min (((p.moveAhead 1).skipWhile (fun c => c != p.peek)).Index + 1)
                    p.Text.length := by
                show min _ _ = _
                rw [hsT]
              omega
            · rw [if_neg hq]
              have := ih depth (p.moveAhead 1) hm1le
              rw [ParsingHelper.moveAhead_Text] at this
              omega

/-- Cursor facts for `extractBlock`: the parser text is unchanged, the cursor
strictly advances past the opening delimiter, stays within the text, and the
extracted block is strictly shorter than the remaining text. -/
theorem extractBlock_progress (q : ParsingHelper) (oc cc : Char)
    (h : q.Index < q.Text.length) :
    (extractBlock q oc cc).2.Text = q.Text ∧
      q.Index < (extractBlock q oc cc).2.Index ∧
      (extractBlock q oc cc).2.Index ≤ q.Text.length ∧
      (extractBlock q oc cc).1.length < q.Text.length - q.Index := by
  have hm1I : (q.moveAhead 1).Index = q.Index + 1 :=
    ParsingHelper.moveAhead_one_index q h
  simp only [extractBlock, ParsingHelper.moveAhead_Text, hm1I]
  set r := extractBlockLoopF oc cc (q.Text.length - (q.Index + 1)) 1
    (q.moveAhead 1) with hr
  have hloop := extractBlockLoopF_index_le oc cc
    (q.Text.length - (q.Index + 1)) 1 (q.moveAhead 1)
    (by rw [ParsingHelper.moveAhead_Text]
        exact ParsingHelper.moveAhead_index_le_length _ _)
  rw [← hr, ParsingHelper.moveAhead_Text, hm1I] at hloop
  have hrT : r.Text = q.Text := by
    rw [hr, extractBlockLoopF_Text, ParsingHelper.moveAhead_Text]
  refine ⟨hrT, by omega, by omega, ?_⟩
  simp only [ParsingHelper.extract, hrT, List.length_take, List.length_drop]
  omega

/-- The progress invariant of one scanning-loop iteration, relative to the
scanner state `p` at its start. -/
def stepProgressProp (p : ParsingHelper) : StepResult → Prop
  | .done _ => True
  | .next p' _ =>
      p'.Text = p.Text ∧ p.Index < p'.Index ∧ p'.Index ≤ p.Text.length
  | .block b _ _ p' _ =>
      p'.Text = p.Text ∧ p.Index < p'.Index ∧ p'.Index ≤ p.Text.length ∧
        b.length < p.Text.length - p.Index

/-- Every non-terminating iteration of the scanning loop strictly advances
the cursor, and the new cursor never exceeds the text length; an extracted
block is strictly shorter than the remaining text. -/
theorem parseStep_progress (stopWords : List (List Char))
    (dc : ConjunctionType) (p : ParsingHelper) (st : ParseState)
    (hle : p.Index ≤ p.Text.length) :
    stepProgressProp p (parseStep stopWords dc p st) := by
  have hite : ∀ (c : Prop) (inst : Decidable c) (x y : StepResult),
      stepProgressProp p x → stepProgressProp p y →
      stepProgressProp p (ite c x y) := by
    intro c inst x y hx hy
    by_cases hc : c
    · rwa [if_pos hc]
    · rwa [if_neg hc]
  rw [parseStep]
  by_cases he1 : p.EndOfText = true
  · rw [if_pos he1]
    trivial
  · rw [if_neg he1]
    simp only []
    have hlt : p.Index < p.Text.length := (p.not_endOfText_iff).mp (by
      simpa using he1)
    have hqT : p.skipWhitespace.Text = p.Text := ParsingHelper.skipWhitespace_Text p
    have hqI : p.Index ≤ p.skipWhitespace.Index := ParsingHelper.skipWhitespace_index_le p
    have hqL : p.skipWhitespace.Index ≤ p.Text.length :=
      ParsingHelper.skipWhitespace_index_le_length p hle
    have hqWs : wsChars.contains p.skipWhitespace.peek = false :=
      ParsingHelper.skipWhitespace_peek p
    by_cases he2 : p.skipWhitespace.EndOfText = true
    · rw [if_pos he2]
      trivial
    · rw [if_neg he2]
      have hqlt : p.skipWhitespace.Index < p.Text.length := by
        have := (p.skipWhitespace.not_endOfText_iff).mp (by simpa using he2)
        rwa [hqT] at this
      cases hpunct : punctuation.contains p.skipWhitespace.peek with
      | false =>
          simp only [Bool.not_false, if_true]
          -- the scanned term is nonempty, so the cursor strictly advances
          have hpred : (fun c => !(punctuation.contains c) && !(wsChars.contains c))
              p.skipWhitespace.peek = true := by
            simp only [Bool.and_eq_true, Bool.not_eq_true']
            exact ⟨hpunct, hqWs⟩
          have hsI : p.skipWhitespace.Index <
              (p.skipWhitespace.parseWhile
                (fun c => !(punctuation.contains c) && !(wsChars.contains c))).2.Index := by
            rw [ParsingHelper.parseWhile]
            exact ParsingHelper.skipWhile_index_lt_of_pred _ _ hpred (by simpa using he2)
          have hsT : (p.skipWhitespace.parseWhile
              (fun c => !(punctuation.contains c) && !(wsChars.contains c))).2.Text = p.Text := by
            rw [ParsingHelper.parseWhile]
            simpa using (ParsingHelper.skipWhile_Text p.skipWhitespace _).trans hqT
          have hsL : (p.skipWhitespace.parseWhile
              (fun c => !(punctuation.contains c) && !(wsChars.contains c))).2.Index ≤
              p.Text.length := by
            rw [ParsingHelper.parseWhile]
            have := ParsingHelper.skipWhile_index_le_length p.skipWhitespace
              (fun c => !(punctuation.contains c) && !(wsChars.contains c))
              (by rw [hqT]; exact hqL)
            rw [hqT] at this
            exact this
          have key : ∀ st0 : ParseState, stepProgressProp p (StepResult.next
              (if ((p.skipWhitespace.parseWhile
                  (fun c => !(punctuation.contains c) && !(wsChars.contains c))).2.peek == '*') = true then
                (p.skipWhitespace.parseWhile
                  (fun c => !(punctuation.contains c) && !(wsChars.contains c))).2.moveAhead 1
              else (p.skipWhitespace.parseWhile
                (fun c => !(punctuation.contains c) && !(wsChars.contains c))).2) st0) := by
            intro st0
            simp only [stepProgressProp]
            split
            · refine ⟨by rw [ParsingHelper.moveAhead_Text]; exact hsT, ?_, ?_⟩
              · have := ParsingHelper.moveAhead_index_mono
                  (p.skipWhitespace.parseWhile
                    (fun c => !(punctuation.contains c) && !(wsChars.contains c))).2 1
                  (by rw [hsT]; exact hsL)
                omega
              · have := ParsingHelper.moveAhead_index_le_length
                  (p.skipWhitespace.parseWhile
                    (fun c => !(punctuation.contains c) && !(wsChars.contains c))).2 1
                rw [hsT] at this
                exact this
            · exact ⟨hsT, by omega, hsL⟩
          apply hite
          · exact key _
          · apply hite
            · exact key _
            · apply hite
              · exact key _
              · apply hite
                · exact key _
                · exact key _
      | true =>
          simp only [Bool.not_true, Bool.false_eq_true, if_false]
          have hnext1 : ∀ st0 : ParseState,
              stepProgressProp p (StepResult.next (p.skipWhitespace.moveAhead 1) st0) := by
            intro st0
            refine ⟨by simpa using hqT, ?_, ?_⟩
            · have := ParsingHelper.moveAhead_one_index p.skipWhitespace (by
                rwa [hqT])
              omega
            · have := ParsingHelper.moveAhead_index_le_length p.skipWhitespace 1
              rwa [hqT] at this
          apply hite
          · -- quoted term
            have hm1T : (p.skipWhitespace.moveAhead 1).Text = p.Text := by simpa using hqT
            have hm1I : (p.skipWhitespace.moveAhead 1).Index = p.skipWhitespace.Index + 1 :=
              ParsingHelper.moveAhead_one_index p.skipWhitespace (by rwa [hqT])
            have hsT : ((p.skipWhitespace.moveAhead 1).parseWhile
                (fun c => c != p.skipWhitespace.peek)).2.Text = p.Text := by
              rw [ParsingHelper.parseWhile]
              simpa using (ParsingHelper.skipWhile_Text (p.skipWhitespace.moveAhead 1) _).trans hm1T
            have hsI : (p.skipWhitespace.moveAhead 1).Index ≤
                ((p.skipWhitespace.moveAhead 1).parseWhile
                  (fun c => c != p.skipWhitespace.peek)).2.Index := by
              rw [ParsingHelper.parseWhile]
              exact ParsingHelper.skipWhile_index_le _ _
            have hsL : ((p.skipWhitespace.moveAhead 1).parseWhile
                (fun c => c != p.skipWhitespace.peek)).2.Index ≤ p.Text.length := by
              rw [ParsingHelper.parseWhile]
              have := ParsingHelper.skipWhile_index_le_length (p.skipWhitespace.moveAhead 1)
                (fun c => c != p.skipWhitespace.peek)
                (by rw [ParsingHelper.moveAhead_Text]
                    exact ParsingHelper.moveAhead_index_le_length _ _)
              rw [ParsingHelper.moveAhead_Text, hqT] at this
              exact this
            refine ⟨by rw [ParsingHelper.moveAhead_Text]; exact hsT, ?_, ?_⟩
            · have := ParsingHelper.moveAhead_index_mono
                ((p.skipWhitespace.moveAhead 1).parseWhile
                  (fun c => c != p.skipWhitespace.peek)).2 1 (by rw [hsT]; exact hsL)
              omega
            · have := ParsingHelper.moveAhead_index_le_length
                ((p.skipWhitespace.moveAhead 1).parseWhile
                  (fun c => c != p.skipWhitespace.peek)).2 1
              rwa [hsT] at this
          · apply hite
            · -- parenthesis block
              have hblk := extractBlock_progress p.skipWhitespace '(' ')' (by rwa [hqT])
              rw [hqT] at hblk
              obtain ⟨hbT, hbI, hbL, hbLen⟩ := hblk
              refine ⟨by rw [ParsingHelper.moveAhead_Text]; exact hbT, ?_, ?_, by omega⟩
              · have := ParsingHelper.moveAhead_index_mono
                  (extractBlock p.skipWhitespace '(' ')').2 1 (by rw [hbT]; exact hbL)
                omega
              · have := ParsingHelper.moveAhead_index_le_length
                  (extractBlock p.skipWhitespace '(' ')').2 1
                rwa [hbT] at this
            · apply hite
              · -- angle bracket block
                have hblk := extractBlock_progress p.skipWhitespace '<' '>' (by rwa [hqT])
                rw [hqT] at hblk
                obtain ⟨hbT, hbI, hbL, hbLen⟩ := hblk
                refine ⟨by rw [ParsingHelper.moveAhead_Text]; exact hbT, ?_, ?_, by omega⟩
                · have := ParsingHelper.moveAhead_index_mono
                    (extractBlock p.skipWhitespace '<' '>').2 1 (by rw [hbT]; exact hbL)
                  omega
                · have := ParsingHelper.moveAhead_index_le_length
                    (extractBlock p.skipWhitespace '<' '>').2 1
                  rwa [hbT] at this
              · apply hite
                · exact hnext1 _
                · apply hite
                  · exact hnext1 _
                  · apply hite
                    · exact hnext1 _
                    · exact hnext1 _

theorem parseNodeAux_mono (stopWords : List (List Char)) (fuel : Nat) :
    ∀ (dc : ConjunctionType) (p : ParsingHelper) (st : ParseState) (r : NodeRef),
      parseNodeAux stopWords fuel dc p st = some r →
      parseNodeAux stopWords (fuel + 1) dc p st = some r := by
  induction fuel with
  | zero => intro dc p st r h; exact absurd h (by simp [parseNodeAux])
  | succ fuel ih =>
      intro dc p st r h
      rw [parseNodeAux] at h ⊢
      cases hs : parseStep stopWords dc p st with
      | done r0 => simp only [hs] at h ⊢; exact h
      | next p' st' =>
          simp only [hs] at h ⊢
          exact ih _ _ _ _ h
      | block b bdc grp p' st' =>
          simp only [hs] at h ⊢
          cases hb : parseNodeAux stopWords fuel bdc ⟨b, 0⟩ (initState bdc) with
          | none =>
              simp only [hb] at h
              exact Option.noConfusion h
          | some child =>
              simp only [hb] at h
              rw [ih _ _ _ _ hb]
              simp only []
              exact ih _ _ _ _ h

theorem parseNodeAux_mono_le (stopWords : List (List Char))
    (fuel fuel' : Nat) (hf : fuel ≤ fuel') (dc : ConjunctionType)
    (p : ParsingHelper) (st : ParseState) (r : NodeRef)
    (h : parseNodeAux stopWords fuel dc p st = some r) :
    parseNodeAux stopWords fuel' dc p st = some r := by
  induction fuel' with
  | zero =>
      have : fuel = 0 := by omega
      subst this
      exact h
  | succ fuel' ih =>
      rcases Nat.lt_or_ge fuel (fuel' + 1) with hlt | hge
      · exact parseNodeAux_mono stopWords fuel' _ _ _ _ (ih (by omega))
      · have : fuel = fuel' + 1 := by omega
        subst this
        exact h

/-- Fuel sufficiency: the scanning loop terminates within `remaining + 1`
steps, where `remaining` is the number of characters left, because every
iteration strictly advances the cursor and a recursive block parse works on
a strictly shorter text. -/
theorem parseNodeAux_sufficient (stopWords : List (List Char)) (fuel : Nat) :
    ∀ (dc : ConjunctionType) (p : ParsingHelper) (st : ParseState),
      p.Index ≤ p.Text.length → p.Text.length - p.Index < fuel →
      ∃ r, parseNodeAux stopWords fuel dc p st = some r := by
  induction fuel with
  | zero => intro dc p st hle hf; omega
  | succ fuel ih =>
      intro dc p st hle hf
      rw [parseNodeAux]
      have hprog := parseStep_progress stopWords dc p st hle
      cases hs : parseStep stopWords dc p st with
      | done r0 => exact ⟨r0, rfl⟩
      | next p' st' =>
          rw [hs] at hprog
          obtain ⟨hT, hI, hL⟩ := hprog
          have hlen : p'.Text.length = p.Text.length := by rw [hT]
          exact ih dc p' st' (by omega) (by omega)
      | block b bdc grp p' st' =>
          rw [hs] at hprog
          obtain ⟨hT, hI, hL, hB⟩ := hprog
          have hlen : p'.Text.length = p.Text.length := by rw [hT]
          obtain ⟨child, hchild⟩ := ih bdc ⟨b, 0⟩ (initState bdc)
            (by simp) (by simp; omega)
          simp only [hchild]
          exact ih dc p' _ (by omega) (by omega)

theorem setGrouped_parsedWF (n : Node) (g : Bool) (h : n.parsedWF) :
    (n.setGrouped g).parsedWF := by
  match n with
  | .terminal term tf e _ => exact h
  | .internal l r c e _ => exact h

theorem addNode_parsedWF (root nodeArg : NodeRef) (c : ConjunctionType)
    (g : Bool) (h1 : root.parsedWF) (h2 : nodeArg.parsedWF) :
    (addNode root nodeArg c g).parsedWF := by
  match nodeArg with
  | .null => exact h1
  | .node n =>
      match root with
      | .null => exact setGrouped_parsedWF n g h2
      | .node r => exact ⟨h1, setGrouped_parsedWF n g h2⟩

theorem addNodeByString_parsedWF (stopWords : List (List Char))
    (root : NodeRef) (term : List Char) (tf : TermForm) (e : Bool)
    (c : ConjunctionType) (h : root.parsedWF) :
    (addNodeByString stopWords root term tf e c).parsedWF := by
  rw [addNodeByString]
  split
  · rename_i hcond
    apply addNode_parsedWF _ _ _ _ h
    show (Option.isSome (some tf)) = true ∧ term ≠ []
    simp only [Bool.and_eq_true, decide_eq_true_eq] at hcond
    refine ⟨rfl, ?_⟩
    intro hnil
    rw [hnil] at hcond
    simp at hcond
  · exact h

/-- The root accumulated by one scanning-loop iteration stays well formed. -/
def stepRootWF : StepResult → Prop
  | .done r => r.parsedWF
  | .next _ st => st.root.parsedWF
  | .block _ _ _ _ st => st.root.parsedWF

theorem parseStep_rootWF (stopWords : List (List Char))
    (dc : ConjunctionType) (p : ParsingHelper) (st : ParseState)
    (h : st.root.parsedWF) :
    stepRootWF (parseStep stopWords dc p st) := by
  have hite : ∀ (c : Prop) (inst : Decidable c) (x y : StepResult),
      stepRootWF x → stepRootWF y → stepRootWF (ite c x y) := by
    intro c inst x y hx hy
    by_cases hc : c
    · rwa [if_pos hc]
    · rwa [if_neg hc]
  rw [parseStep]
  apply hite
  · exact h
  · simp only []
    have hroot : (if st.resetState = true then
        { st with conjunction := dc, termForm := TermForm.Inflectional,
                  termExclude := false, resetState := false }
      else st).root.parsedWF := by
      split
      · exact h
      · exact h
    apply hite
    · exact hroot
    · apply hite
      · -- term branch: operators keep the root, a term appends to it
        apply hite
        · dsimp only [stepRootWF]
          split <;> exact hroot
        · apply hite
          · dsimp only [stepRootWF]
            split <;> exact hroot
          · apply hite
            · dsimp only [stepRootWF]
              split <;> exact hroot
            · apply hite
              · dsimp only [stepRootWF]
                split <;> exact hroot
              · dsimp only [stepRootWF]
                apply addNodeByString_parsedWF
                split <;> exact hroot
      · apply hite
        · dsimp only [stepRootWF]
          exact addNodeByString_parsedWF _ _ _ _ _ _ hroot
        · apply hite
          · exact hroot
          · apply hite
            · exact hroot
            · apply hite
              · exact hroot
              · apply hite
                · exact hroot
                · apply hite
                  · exact hroot
                  · exact hroot

/-- Every parse result is well formed. -/
theorem parseNodeAux_rootWF (stopWords : List (List Char)) (fuel : Nat) :
    ∀ (dc : ConjunctionType) (p : ParsingHelper) (st : ParseState)
      (r : NodeRef), st.root.parsedWF →
      parseNodeAux stopWords fuel dc p st = some r → r.parsedWF := by
  induction fuel with
  | zero =>
      intro dc p st r hwf h
      exact Option.noConfusion h
  | succ fuel ih =>
      intro dc p st r hwf h
      rw [parseNodeAux] at h
      have hstep := parseStep_rootWF stopWords dc p st hwf
      cases hs : parseStep stopWords dc p st with
      | done r0 =>
          rw [hs] at h hstep
          cases h
          exact hstep
      | next p' st' =>
          rw [hs] at h hstep
          exact ih _ _ _ _ hstep h
      | block b bdc grp p' st' =>
          rw [hs] at h hstep
          simp only [] at h
          cases hb : parseNodeAux stopWords fuel bdc ⟨b, 0⟩ (initState bdc) with
          | none =>
              rw [hb] at h
              exact Option.noConfusion h
          | some child =>
              rw [hb] at h
              have hchild : child.parsedWF := ih _ _ _ _ (by exact trivial) hb
              exact ih _ _ _ _ (addNode_parsedWF _ _ _ _ hstep hchild) h

/-- Helper: the final elimination guard applied to a collapsed child
preserves well-formedness. -/
theorem collapse_fixedWF (isRoot : Bool) (s m : Node) (hs : s.fixedWF)
    (hm : (if ((s.grouped || isRoot) && s.exclude) = true then NodeRef.null
      else NodeRef.node s) = NodeRef.node m) : m.fixedWF := by
  split at hm
  · exact NodeRef.noConfusion hm
  · cases hm
    exact hs

/-- Helper: the exclude-combination/swap merge preserves well-formedness. -/
theorem merge_fixedWF (isRoot g : Bool) (lc rc : Node)
    (c2 : Option ConjunctionType) (m : Node)
    (ha : lc.fixedWF) (hb : rc.fixedWF)
    (hm : (if ((g || isRoot) && (lc.exclude && rc.exclude)) = true then
        NodeRef.null
      else NodeRef.node (Node.internal
        (.node (if (!(lc.exclude && rc.exclude) && lc.exclude) = true then rc else lc))
        (.node (if (!(lc.exclude && rc.exclude) && lc.exclude) = true then lc else rc))
        c2 (lc.exclude && rc.exclude) g)) = NodeRef.node m) : m.fixedWF := by
  split at hm
  · exact NodeRef.noConfusion hm
  · cases hm
    constructor
    · split
      · exact hb
      · exact ha
    · split
      · exact ha
      · exact hb

mutual
/-- The fix-up pass turns a well-formed parsed node into a well-formed
surviving node (both children of every surviving internal node present). -/
theorem fixUpNode_fixedWF (nd : Node) (isRoot : Bool) (h : nd.parsedWF) :
    ∀ m, fixUpExpressionTree (.node nd) isRoot = .node m → m.fixedWF :=
  match nd with
  | .terminal term tf e g => by
      intro m hm
      rw [fixUpExpressionTree] at hm
      split at hm
      · exact NodeRef.noConfusion hm
      · cases hm
        exact h
  | .internal l r conj e g => by
      intro m hm
      obtain ⟨hl, hr⟩ := h
      have ihl := fixUpRef_fixedWF l false hl
      have ihr := fixUpRef_fixedWF r false hr
      rw [fixUpExpressionTree] at hm
      simp only [] at hm
      have hOr : ∀ (c0 : Option ConjunctionType),
          (match ((if isInvalidWithOr (fixUpExpressionTree l false) = true then
                NodeRef.null else fixUpExpressionTree l false),
              (if isInvalidWithOr (fixUpExpressionTree r false) = true then
                NodeRef.null else fixUpExpressionTree r false), c0) with
            | (NodeRef.null, NodeRef.null, _) => NodeRef.null
            | (NodeRef.null, NodeRef.node rc, _) =>
                if (rc.grouped || isRoot) && rc.exclude then NodeRef.null
                else NodeRef.node rc
            | (NodeRef.node lc, NodeRef.null, _) =>
                if (lc.grouped || isRoot) && lc.exclude then NodeRef.null
                else NodeRef.node lc
            | (NodeRef.node lc, NodeRef.node rc, conj2) =>
                let e2 := lc.exclude && rc.exclude
                let lc2 := if !e2 && lc.exclude then rc else lc
                let rc2 := if !e2 && lc.exclude then lc else rc
                if (g || isRoot) && e2 then NodeRef.null
                else NodeRef.node (Node.internal (.node lc2) (.node rc2) conj2 e2 g))
            = NodeRef.node m → m.fixedWF := by
        intro c0 hmm
        cases hlv : fixUpExpressionTree l false with
        | null =>
            simp only [hlv, isInvalidWithOr, reduceIte] at hmm
            cases hrv : fixUpExpressionTree r false with
            | null =>
                simp only [hrv, isInvalidWithOr, reduceIte] at hmm
                exact NodeRef.noConfusion hmm
            | node b =>
                simp only [hrv, isInvalidWithOr] at hmm
                cases hbex : b.exclude with
                | true =>
                    simp only [hbex, reduceIte] at hmm
                    exact NodeRef.noConfusion hmm
                | false =>
                    simp only [hbex, reduceIte] at hmm
                    exact collapse_fixedWF isRoot b m (ihr b hrv) hmm
        | node a =>
            simp only [hlv, isInvalidWithOr] at hmm
            cases haex : a.exclude with
            | true =>
                simp only [haex, reduceIte] at hmm
                cases hrv : fixUpExpressionTree r false with
                | null =>
                    simp only [hrv, isInvalidWithOr, reduceIte] at hmm
                    exact NodeRef.noConfusion hmm
                | node b =>
                    simp only [hrv, isInvalidWithOr] at hmm
                    cases hbex : b.exclude with
                    | true =>
                        simp only [hbex, reduceIte] at hmm
                        exact NodeRef.noConfusion hmm
                    | false =>
                        simp only [hbex, reduceIte] at hmm
                        exact collapse_fixedWF isRoot b m (ihr b hrv) hmm
            | false =>
                simp only [haex, reduceIte] at hmm
                cases hrv : fixUpExpressionTree r false with
                | null =>
                    simp only [hrv, isInvalidWithOr, reduceIte] at hmm
                    exact collapse_fixedWF isRoot a m (ihl a hlv) hmm
                | node b =>
                    simp only [hrv, isInvalidWithOr] at hmm
                    cases hbex : b.exclude with
                    | true =>
                        simp only [hbex, reduceIte] at hmm
                        exact collapse_fixedWF isRoot a m (ihl a hlv) hmm
                    | false =>
                        simp only [hbex, reduceIte] at hmm
                        exact merge_fixedWF isRoot g a b c0 m (ihl a hlv) (ihr b hrv) hmm
      have hPlain : ∀ (c0 : Option ConjunctionType),
          (match (fixUpExpressionTree l false, fixUpExpressionTree r false, c0) with
            | (NodeRef.null, NodeRef.null, _) => NodeRef.null
            | (NodeRef.null, NodeRef.node rc, _) =>
                if (rc.grouped || isRoot) && rc.exclude then NodeRef.null
                else NodeRef.node rc
            | (NodeRef.node lc, NodeRef.null, _) =>
                if (lc.grouped || isRoot) && lc.exclude then NodeRef.null
                else NodeRef.node lc
            | (NodeRef.node lc, NodeRef.node rc, conj2) =>
                let e2 := lc.exclude && rc.exclude
                let lc2 := if !e2 && lc.exclude then rc else lc
                let rc2 := if !e2 && lc.exclude then lc else rc
                if (g || isRoot) && e2 then NodeRef.null
                else NodeRef.node (Node.internal (.node lc2) (.node rc2) conj2 e2 g))
            = NodeRef.node m → m.fixedWF := by
        intro c0 hmm
        cases hlv : fixUpExpressionTree l false with
        | null =>
            simp only [hlv] at hmm
            cases hrv : fixUpExpressionTree r false with
            | null =>
                simp only [hrv] at hmm
                exact NodeRef.noConfusion hmm
            | node b =>
                simp only [hrv] at hmm
                exact collapse_fixedWF isRoot b m (ihr b hrv) hmm
        | node a =>
            simp only [hlv] at hmm
            cases hrv : fixUpExpressionTree r false with
            | null =>
                simp only [hrv] at hmm
                exact collapse_fixedWF isRoot a m (ihl a hlv) hmm
            | node b =>
                simp only [hrv] at hmm
                exact merge_fixedWF isRoot g a b c0 m (ihl a hlv) (ihr b hrv) hmm
      cases conj with
      | none =>
          simp only [reduceCtorEq, reduceIte] at hm
          exact hPlain none hm
      | some c =>
          cases c with
          | And =>
              simp only [reduceCtorEq, Option.some.injEq, reduceIte] at hm
              exact hPlain (some ConjunctionType.And) hm
          | Near =>
              simp only [reduceCtorEq, Option.some.injEq, reduceIte] at hm
              exact hPlain _ hm
          | Or =>
              simp only [reduceCtorEq, Option.some.injEq, reduceIte] at hm
              exact hOr (some ConjunctionType.Or) hm

theorem fixUpRef_fixedWF (n : NodeRef) (isRoot : Bool) (h : n.parsedWF) :
    ∀ m, fixUpExpressionTree n isRoot = .node m → m.fixedWF :=
  match n with
  | .null => by
      intro m hm
      exact NodeRef.noConfusion hm
  | .node nd => fixUpNode_fixedWF nd isRoot h
end

/-- `parseNode(query, defaultConjunction)`: parse a query segment into an
expression tree (or no tree when nothing valid was found). -/
def parseNode (stopWords : List (List Char)) (query : List Char)
    (defaultConjunction : ConjunctionType) : NodeRef :=
  (parseNodeAux stopWords (query.length + 1) defaultConjunction ⟨query, 0⟩
    (initState defaultConjunction)).getD .null

/-- `transform(query)`: parse, fix up, and render — or the empty string when
no valid condition was possible. -/
def transform (stopWords : List (List Char)) (query : List Char) : List Char :=
  match fixUpExpressionTree (parseNode stopWords query ConjunctionType.And) true with
  | .node node => node.toString
  | .null => []

theorem takeWhile_all_append (pred : Char → Bool) (w rest : List Char)
    (hw : ∀ c ∈ w, pred c = true)
    (hr : rest = [] ∨ ∃ c r2, rest = c :: r2 ∧ pred c = false) :
    (w ++ rest).takeWhile pred = w ∧ (w ++ rest).dropWhile pred = rest := by
  induction w with
  | nil =>
      simp only [List.nil_append]
      rcases hr with h | ⟨c, r2, hre, hc⟩
      · subst h
        simp
      · subst hre
        simp [List.takeWhile_cons, List.dropWhile_cons, hc]
  | cons a w2 ih =>
      have ha : pred a = true := hw a (by simp)
      have ih2 := ih fun c hc => hw c (by simp [hc])
      simp [List.takeWhile_cons, List.dropWhile_cons, ha, ih2.1, ih2.2]

theorem drop_takeWhile_length (pred : Char → Bool) (l : List Char) :
    l.drop (l.takeWhile pred).length = l.dropWhile pred := by
  calc l.drop (l.takeWhile pred).length
      = (l.takeWhile pred ++ l.dropWhile pred).drop (l.takeWhile pred).length := by
        rw [List.takeWhile_append_dropWhile]
    _ = l.dropWhile pred := List.drop_left _ _

/-- A whitespace-separated sequence of plain scanner words (no punctuation,
no embedded whitespace), each of which is a member of the injected stop-word
set. -/
inductive StopWordText (stopWords : List (List Char)) : List Char → Prop
  | nil : StopWordText stopWords []
  | ws (c : Char) (rest : List Char) :
      wsChars.contains c = true → StopWordText stopWords rest →
      StopWordText stopWords (c :: rest)
  | word (w rest : List Char) :
      w ≠ [] →
      (∀ c ∈ w, punctuation.contains c = false ∧ wsChars.contains c = false) →
      isStopWord stopWords w = true →
      (rest = [] ∨ ∃ c r2, rest = c :: r2 ∧ wsChars.contains c = true) →
      StopWordText stopWords rest →
      StopWordText stopWords (w ++ rest)

/-- Skipping leading whitespace in a stop-word text leaves either nothing or
a stop word followed by more stop-word text. -/
theorem StopWordText.after_ws (sw : List (List Char)) (l : List Char)
    (h : StopWordText sw l) :
    l.dropWhile (fun c => wsChars.contains c) = [] ∨
    ∃ w rest, l.dropWhile (fun c => wsChars.contains c) = w ++ rest ∧
      w ≠ [] ∧
      (∀ c ∈ w, punctuation.contains c = false ∧ wsChars.contains c = false) ∧
      isStopWord sw w = true ∧
      (rest = [] ∨ ∃ c r2, rest = c :: r2 ∧ wsChars.contains c = true) ∧
      StopWordText sw rest := by
  induction h with
  | nil =>
      left
      rfl
  | ws c rest hc hrest ih =>
      rw [List.dropWhile_cons]
      simp only [hc, if_true]
      exact ih
  | word w rest hwne hchars hswd hrsh hrec =>
      right
      refine ⟨w, rest, ?_, hwne, hchars, hswd, hrsh, hrec⟩
      cases w with
      | nil => exact absurd rfl hwne
      | cons a w2 =>
          have ha : wsChars.contains a = false := (hchars a (by simp)).2
          rw [List.cons_append, List.dropWhile_cons]
          simp only [ha, Bool.false_eq_true, if_false]

/-- On stop-word text, one loop iteration either finishes or advances the
cursor without ever adding a node: the accumulated root is untouched and the
remaining text is still stop-word text. -/
theorem parseStep_stopWord (sw : List (List Char)) (dc : ConjunctionType)
    (t : List Char) (i : Nat) (st : ParseState)
    (hile : i ≤ t.length) (hswt : StopWordText sw (t.drop i)) :
    parseStep sw dc ⟨t, i⟩ st = .done st.root ∨
    ∃ (j : Nat) (st' : ParseState),
      parseStep sw dc ⟨t, i⟩ st = .next ⟨t, j⟩ st' ∧ i < j ∧ j ≤ t.length ∧
      st'.root = st.root ∧ StopWordText sw (t.drop j) := by
  by_cases hend : t.length ≤ i
  · left
    rw [parseStep, if_pos (by simp [ParsingHelper.EndOfText]; omega)]
  · have hlt : i < t.length := by omega
    rw [parseStep, if_neg (by simp [ParsingHelper.EndOfText]; omega)]
    simp only []
    have hroot : (if st.resetState = true then
        { st with conjunction := dc, termForm := TermForm.Inflectional,
                  termExclude := false, resetState := false }
      else st).root = st.root := by
      by_cases hrs : st.resetState = true
      · rw [if_pos hrs]
      · rw [if_neg hrs]
    have hsk : (⟨t, i⟩ : ParsingHelper).skipWhitespace =
        ⟨t, i + ((t.drop i).takeWhile (fun c => wsChars.contains c)).length⟩ := by
      rw [ParsingHelper.skipWhitespace_spec ⟨t, i⟩ hile]
    rw [hsk]
    generalize hKdef :
      ((t.drop i).takeWhile (fun c => wsChars.contains c)).length = K
    have hKle : K ≤ t.length - i := by
      have h0 : ((t.drop i).takeWhile (fun c => wsChars.contains c)).length ≤
          (t.drop i).length :=
        (List.takeWhile_prefix (fun c => wsChars.contains c)).length_le
      rw [hKdef] at h0
      simpa using h0
    rcases StopWordText.after_ws sw (t.drop i) hswt with hdw |
      ⟨w, rest, hdweq, hwne, hchars, hswd, hrsh, hrec⟩
    · left
      have hktot : K = t.length - i := by
        have h1 := congrArg List.length
          (List.takeWhile_append_dropWhile (fun c => wsChars.contains c) (t.drop i))
        rw [hdw] at h1
        simp only [List.length_append, List.length_nil, List.length_drop] at h1
        omega
      rw [if_pos (by
        simp only [ParsingHelper.EndOfText, decide_eq_true_eq]
        omega)]
      rw [hroot]
    · have hk_drop : t.drop (i + K) = w ++ rest := by
        have h1 : (t.drop i).drop K = t.drop (i + K) := by
          rw [List.drop_drop]
        rw [← h1, ← hKdef, drop_takeWhile_length]
        exact hdweq
      have hlen2 : w.length + rest.length = t.length - (i + K) := by
        have h2 := congrArg List.length hk_drop
        simp at h2
        omega
      cases w with
      | nil => exact absurd rfl hwne
      | cons a w2 =>
      have hpa : punctuation.contains a = false := (hchars a (by simp)).1
      have hwsa : wsChars.contains a = false := (hchars a (by simp)).2
      simp only [List.length_cons] at hlen2
      have hjlt : i + K < t.length := by omega
      rw [if_neg (by simp [ParsingHelper.EndOfText]; omega)]
      have hpk : (⟨t, i + K⟩ : ParsingHelper).peek = a := by
        have h2 := getD_drop t (i + K) 0 nullChar
        rw [hk_drop] at h2
        simpa [ParsingHelper.peek] using h2.symm
      rw [hpk]
      rw [if_pos (by simp only [hpa, Bool.not_false])]
      have hdecomp := takeWhile_all_append
        (fun c => !(punctuation.contains c) && !(wsChars.contains c)) (a :: w2) rest
        (by
          intro c hc
          have hcc := hchars c hc
          simp only [hcc.1, hcc.2, Bool.not_false, Bool.and_self])
        (by
          rcases hrsh with h | ⟨c, r2, hre, hcws⟩
          · exact Or.inl h
          · exact Or.inr ⟨c, r2, hre,
              by simp only [hcws, Bool.not_true, Bool.and_false]⟩)
      have hpw : (⟨t, i + K⟩ : ParsingHelper).parseWhile
          (fun c => !(punctuation.contains c) && !(wsChars.contains c)) =
          (a :: w2, ⟨t, i + K + (w2.length + 1)⟩) := by
        rw [ParsingHelper.parseWhile_spec _ _ (Nat.le_of_lt hjlt)]
        show ((t.drop (i + K)).takeWhile _, _) = _
        rw [hk_drop, hdecomp.1, List.length_cons]
      rw [hpw]
      simp only []
      have hdrop2 : t.drop (i + K + (w2.length + 1)) = rest := by
        have h1 : (t.drop (i + K)).drop (w2.length + 1) =
            t.drop (i + K + (w2.length + 1)) := by
          rw [List.drop_drop]
        rw [← h1, hk_drop]
        exact List.drop_left (a :: w2) rest
      have hwc : ((⟨t, i + K + (w2.length + 1)⟩ : ParsingHelper).peek == '*') =
          false := by
        rcases hrsh with h | ⟨c, r2, hre, hcws⟩
        · subst h
          have hlen3 : t.length ≤ i + K + (w2.length + 1) := by
            have h3 := congrArg List.length hdrop2
            simp at h3
            omega
          rw [ParsingHelper.peek_eq_nullChar_of_ge _ hlen3]
          decide
        · have hpk2 : (⟨t, i + K + (w2.length + 1)⟩ : ParsingHelper).peek = c := by
            have h2 := getD_drop t (i + K + (w2.length + 1)) 0 nullChar
            rw [hdrop2, hre] at h2
            simpa [ParsingHelper.peek] using h2.symm
          rw [hpk2]
          have hcmem : c = ' ' ∨ c = '\t' ∨ c = '\n' ∨ c = '\r' := by
            simpa [wsChars] using hcws
          rcases hcmem with h | h | h | h <;> subst h <;> decide
      simp only [hwc, Bool.false_eq_true, if_false]
      have hj2 : i + K + (w2.length + 1) ≤ t.length := by omega
      have hsw2 : StopWordText sw (t.drop (i + K + (w2.length + 1))) := by
        rw [hdrop2]
        exact hrec
      have hadd : ∀ (R : NodeRef) (tf : TermForm) (te : Bool)
          (cj : ConjunctionType), addNodeByString sw R (a :: w2) tf te cj = R := by
        intro R tf te cj
        rw [addNodeByString, if_neg (by simp [hswd])]
      by_cases hk1 : keywordTest "and".toList (a :: w2) = true
      · rw [if_pos hk1]
        exact Or.inr ⟨_, _, rfl, by omega, hj2, hroot, hsw2⟩
      · rw [if_neg hk1]
        by_cases hk2 : keywordTest "or".toList (a :: w2) = true
        · rw [if_pos hk2]
          exact Or.inr ⟨_, _, rfl, by omega, hj2, hroot, hsw2⟩
        · rw [if_neg hk2]
          by_cases hk3 : keywordTest "near".toList (a :: w2) = true
          · rw [if_pos hk3]
            exact Or.inr ⟨_, _, rfl, by omega, hj2, hroot, hsw2⟩
          · rw [if_neg hk3]
            by_cases hk4 : keywordTest "not".toList (a :: w2) = true
            · rw [if_pos hk4]
              exact Or.inr ⟨_, _, rfl, by omega, hj2, hroot, hsw2⟩
            · rw [if_neg hk4]
              exact Or.inr ⟨_, _, rfl, by omega, hj2,
                (hadd _ _ _ _).trans hroot, hsw2⟩

/-- On stop-word text the whole scanning loop returns the root it started
with: no node is ever created. -/
theorem parseNodeAux_stopWord (sw : List (List Char)) :
    ∀ (fuel : Nat) (dc : ConjunctionType) (t : List Char) (i : Nat)
      (st : ParseState), i ≤ t.length → t.length - i < fuel →
      StopWordText sw (t.drop i) →
      parseNodeAux sw fuel dc ⟨t, i⟩ st = some st.root := by
  intro fuel
  induction fuel with
  | zero =>
      intro dc t i st h1 h2 h3
      omega
  | succ fuel ih =>
      intro dc t i st h1 h2 h3
      rw [parseNodeAux]
      rcases parseStep_stopWord sw dc t i st h1 h3 with h |
        ⟨j, st', heq, hij, hjle, hroot, hsw2⟩
      · simp only [h]
      · simp only [heq]
        rw [ih dc t j st' hjle (by omega) hsw2, hroot]

end FTSQuery

/-! ## Claims -/

open FTSQuery

mutual
/-- The boolean structure of an expression tree as the spec's C8 sentence
measures it: the list of terminal terms with their exclusion flags. -/
def Node.termPairs : Node → List (List Char × Bool)
  | .terminal term _ e _ => [(term, e)]
  | .internal l r _ _ _ => l.termPairs ++ r.termPairs
/-- The terminal (term, exclude) pairs reachable through a node reference. -/
def NodeRef.termPairs : NodeRef → List (List Char × Bool)
  | .null => []
  | .node n => n.termPairs
end

/-- The boolean structure a query denotes: the terminal (term, exclude) pairs
of its parsed and fixed-up expression tree. -/
def queryTermPairs (sw : List (List Char)) (q : List Char) :
    List (List Char × Bool) :=
  (fixUpExpressionTree (parseNode sw q ConjunctionType.And) true).termPairs

/-- C9: `transform` terminates on every input string: the scanning loop
strictly advances the cursor or exits at end of text, so a fuel of
`query.length + 1` already suffices for `parseNode`'s loop (total work
bounded by the input length, with nested blocks parsed on strictly shorter
texts), and any larger fuel computes the same result. -/
theorem claim_C9_parse_terminates (stopWords : List (List Char))
    (query : List Char) (dc : ConjunctionType) (fuel : Nat)
    (hf : query.length + 1 ≤ fuel) :
    parseNodeAux stopWords fuel dc ⟨query, 0⟩ (initState dc) =
      some (parseNode stopWords query dc) := by
  obtain ⟨r, hr⟩ := parseNodeAux_sufficient stopWords (query.length + 1) dc
    ⟨query, 0⟩ (initState dc) (by simp) (by simp)
  have hpn : parseNode stopWords query dc = r := by
    rw [parseNode, hr]
    rfl
  rw [hpn]
  exact parseNodeAux_mono_le stopWords _ _ hf _ _ _ _ hr

theorem claim_C9_witness :
    parseNodeAux [] 9 ConjunctionType.And ⟨"abc def".toList, 0⟩
        (initState ConjunctionType.And) =
      some (parseNode [] ("abc def".toList) ConjunctionType.And) :=
  claim_C9_parse_terminates [] _ ConjunctionType.And 9 (by decide)

/-- C1: `transform` is total — the parser always terminates with a result —
and the result is the empty string exactly when no valid node survives
parsing and normalisation (a surviving well-formed node always renders to a
nonempty string). -/
theorem claim_C1_total_and_empty_iff (stopWords : List (List Char))
    (query : List Char) :
    (parseNodeAux stopWords (query.length + 1) ConjunctionType.And ⟨query, 0⟩
        (initState ConjunctionType.And)).isSome = true ∧
    (transform stopWords query = [] ↔
      fixUpExpressionTree (parseNode stopWords query ConjunctionType.And) true =
        NodeRef.null) := by
  obtain ⟨r, hr⟩ := parseNodeAux_sufficient stopWords (query.length + 1)
    ConjunctionType.And ⟨query, 0⟩ (initState ConjunctionType.And)
    (by simp) (by simp)
  refine ⟨by rw [hr]; rfl, ?_⟩
  have hpn : parseNode stopWords query ConjunctionType.And = r := by
    rw [parseNode, hr]
    rfl
  have hwf : r.parsedWF :=
    parseNodeAux_rootWF stopWords (query.length + 1) _ _ _ _
      (by exact trivial) hr
  constructor
  · intro hempty
    cases hfx : fixUpExpressionTree (parseNode stopWords query ConjunctionType.And) true with
    | null => rfl
    | node m =>
        have hmwf : m.fixedWF := fixUpRef_fixedWF r true hwf m (hpn ▸ hfx)
        rw [transform, hfx] at hempty
        exact absurd hempty (Node.fixedWF_toString_ne m hmwf)
  · intro hnull
    rw [transform, hnull]

/-- C2: During `fixUpExpressionTree`, an Internal node whose conjunction is
`Near` behaves exactly like the same node with conjunction `And` whenever
either already-fixed-up child is not a `Literal`-form terminal (the
conjunction is demoted); in particular `transform("abc near -def")` produces
an AND conjunction rather than NEAR. -/
theorem claim_C2_near_demoted_to_and :
    (∀ (l r : NodeRef) (e g isRoot : Bool),
      (isInvalidWithNear (fixUpExpressionTree l false) ||
        isInvalidWithNear (fixUpExpressionTree r false)) = true →
      fixUpExpressionTree
          (.node (Node.internal l r (some ConjunctionType.Near) e g)) isRoot =
        fixUpExpressionTree
          (.node (Node.internal l r (some ConjunctionType.And) e g)) isRoot) ∧
    transform [] ("abc near -def".toList) =
      ("FORMSOF(INFLECTIONAL, abc) AND NOT FORMSOF(INFLECTIONAL, def)").toList := by
  constructor
  · intro l r e g isRoot h
    simp only [fixUpExpressionTree, h]
    simp
  · decide

theorem claim_C2_witness :
    fixUpExpressionTree
        (.node (Node.internal
          (.node (Node.terminal "abc".toList (some TermForm.Inflectional) false false))
          (.node (Node.terminal "def".toList (some TermForm.Inflectional) true false))
          (some ConjunctionType.Near) false false)) true =
      fixUpExpressionTree
        (.node (Node.internal
          (.node (Node.terminal "abc".toList (some TermForm.Inflectional) false false))
          (.node (Node.terminal "def".toList (some TermForm.Inflectional) true false))
          (some ConjunctionType.And) false false)) true :=
  claim_C2_near_demoted_to_and.1 _ _ _ _ _ (by decide)

/-- C3: During `fixUpExpressionTree`, for an Internal node with conjunction
`Or`, each child that is absent or excluded is discarded independently; with
one surviving child the node collapses to it, with none it is eliminated.
Consequently `transform("abc or -def")` is `FORMSOF(INFLECTIONAL, abc)`. -/
theorem claim_C3_or_discards_invalid_children :
    (∀ (l r : NodeRef) (e g isRoot : Bool),
      fixUpExpressionTree
          (.node (Node.internal l r (some ConjunctionType.Or) e g)) isRoot =
        match
          (if isInvalidWithOr (fixUpExpressionTree l false) then NodeRef.null
            else fixUpExpressionTree l false),
          (if isInvalidWithOr (fixUpExpressionTree r false) then NodeRef.null
            else fixUpExpressionTree r false) with
        | .null, .null => .null
        | .null, .node s => .node s
        | .node s, .null => .node s
        | .node a, .node b =>
            .node (Node.internal (.node a) (.node b)
              (some ConjunctionType.Or) false g)) ∧
    transform [] ("abc or -def".toList) =
      ("FORMSOF(INFLECTIONAL, abc)").toList := by
  constructor
  · intro l r e g isRoot
    simp only [fixUpExpressionTree]
    simp only [reduceCtorEq, Option.some.injEq, reduceIte, if_false, if_true]
    cases hl : fixUpExpressionTree l false with
    | null =>
        cases hr : fixUpExpressionTree r false with
        | null => simp [isInvalidWithOr]
        | node b =>
            cases hb : b.exclude with
            | false => simp [isInvalidWithOr, hb]
            | true => simp [isInvalidWithOr, hb]
    | node a =>
        cases hr : fixUpExpressionTree r false with
        | null =>
            cases ha : a.exclude with
            | false => simp [isInvalidWithOr, ha]
            | true => simp [isInvalidWithOr, ha]
        | node b =>
            cases ha : a.exclude with
            | false =>
                cases hb : b.exclude with
                | false => simp [isInvalidWithOr, ha, hb]
                | true => simp [isInvalidWithOr, ha, hb]
            | true =>
                cases hb : b.exclude with
                | false => simp [isInvalidWithOr, ha, hb]
                | true => simp [isInvalidWithOr, ha, hb]
  · decide

/-- C5: Any node returned by a `fixUpExpressionTree` call satisfies the final
elimination rule: a returned node that is grouped (or returned for the root
call) is never an exclude expression; hence the pure negation query `-abc`
transforms to the empty string. -/
theorem claim_C5_grouped_or_root_exclusion :
    (∀ (n : NodeRef) (isRoot : Bool) (m : Node),
      fixUpExpressionTree n isRoot = .node m →
      ((m.grouped || isRoot) && m.exclude) = false) ∧
    transform [] ("-abc".toList) = [] := by
  constructor
  · intro n isRoot m h
    match n with
    | .null => simp [fixUpExpressionTree] at h
    | .node (Node.terminal term tf e g) =>
        rw [fixUpExpressionTree] at h
        split at h
        · exact absurd h (by simp)
        · rename_i hguard
          cases h
          simpa [Node.grouped, Node.exclude] using hguard
    | .node (Node.internal l r conj e g) =>
        rw [fixUpExpressionTree] at h
        split at h
        · exact absurd h (by simp)
        · rename_i hm
          split at h
          · exact absurd h (by simp)
          · rename_i hguard
            cases h
            simpa using hguard
        · rename_i hm
          split at h
          · exact absurd h (by simp)
          · rename_i hguard
            cases h
            simpa using hguard
        · rename_i lc rc conj2 hm
          simp only [] at h
          split at h
          · exact absurd h (by simp)
          · rename_i hguard
            cases h
            simp only [Node.grouped, Node.exclude]
            simpa using hguard
  · decide

theorem claim_C5_witness :
    ((Node.grouped (Node.terminal "abc".toList (some TermForm.Inflectional) false false) ||
        true) &&
      Node.exclude (Node.terminal "abc".toList (some TermForm.Inflectional) false false)) =
      false :=
  claim_C5_grouped_or_root_exclusion.1
    (.node (Node.terminal "abc".toList (some TermForm.Inflectional) false false))
    true _ rfl

/-- C4: During `fixUpExpressionTree`, when both fixed-up children of an
Internal node are present (and, for an `Or` node, survive the operand
filter), the node's `exclude` flag becomes the conjunction of the children's
`exclude` flags, and if the combination is not pure negation while the left
child is excluded, the children are swapped; consequently
`transform("-abc def")` renders the negated operand last. -/
theorem claim_C4_exclude_combination_and_swap :
    (∀ (l r : NodeRef) (conj : Option ConjunctionType) (e g isRoot : Bool)
        (a b : Node),
      fixUpExpressionTree l false = .node a →
      fixUpExpressionTree r false = .node b →
      (conj = some ConjunctionType.Or → a.exclude = false ∧ b.exclude = false) →
      ∃ c : Option ConjunctionType,
        fixUpExpressionTree (.node (Node.internal l r conj e g)) isRoot =
          (if ((g || isRoot) && (a.exclude && b.exclude)) = true then
            NodeRef.null
          else
            .node (Node.internal
              (.node (if (!(a.exclude && b.exclude) && a.exclude) = true then b else a))
              (.node (if (!(a.exclude && b.exclude) && a.exclude) = true then a else b))
              c (a.exclude && b.exclude) g))) ∧
    transform [] ("-abc def".toList) =
      ("FORMSOF(INFLECTIONAL, def) AND NOT FORMSOF(INFLECTIONAL, abc)").toList := by
  constructor
  · intro l r conj e g isRoot a b hl hr hOr
    match conj with
    | none =>
        refine ⟨none, ?_⟩
        simp only [fixUpExpressionTree, hl, hr]
        simp
    | some ConjunctionType.And =>
        refine ⟨some ConjunctionType.And, ?_⟩
        simp only [fixUpExpressionTree, hl, hr]
        simp
    | some ConjunctionType.Near =>
        refine ⟨if (isInvalidWithNear (NodeRef.node a) ||
            isInvalidWithNear (NodeRef.node b)) = true then
            some ConjunctionType.And else some ConjunctionType.Near, ?_⟩
        simp only [fixUpExpressionTree, hl, hr, reduceIte, reduceCtorEq,
          Option.some.injEq]
    | some ConjunctionType.Or =>
        obtain ⟨ha, hb⟩ := hOr rfl
        refine ⟨some ConjunctionType.Or, ?_⟩
        simp only [fixUpExpressionTree, hl, hr, isInvalidWithOr, ha, hb]
        simp [ha, hb]
  · decide

theorem claim_C4_witness :
    ∃ c : Option ConjunctionType,
      fixUpExpressionTree
          (.node (Node.internal
            (.node (Node.terminal "abc".toList (some TermForm.Inflectional) true false))
            (.node (Node.terminal "def".toList (some TermForm.Inflectional) false false))
            (some ConjunctionType.And) false false)) true =
        (if ((false || true) &&
              (Node.exclude (Node.terminal "abc".toList (some TermForm.Inflectional) true false) &&
               Node.exclude (Node.terminal "def".toList (some TermForm.Inflectional) false false))) = true then
          NodeRef.null
        else
          .node (Node.internal
            (.node (if (!(Node.exclude (Node.terminal "abc".toList (some TermForm.Inflectional) true false) &&
                  Node.exclude (Node.terminal "def".toList (some TermForm.Inflectional) false false)) &&
                  Node.exclude (Node.terminal "abc".toList (some TermForm.Inflectional) true false)) = true then
                Node.terminal "def".toList (some TermForm.Inflectional) false false
              else Node.terminal "abc".toList (some TermForm.Inflectional) true false))
            (.node (if (!(Node.exclude (Node.terminal "abc".toList (some TermForm.Inflectional) true false) &&
                  Node.exclude (Node.terminal "def".toList (some TermForm.Inflectional) false false)) &&
                  Node.exclude (Node.terminal "abc".toList (some TermForm.Inflectional) true false)) = true then
                Node.terminal "abc".toList (some TermForm.Inflectional) true false
              else Node.terminal "def".toList (some TermForm.Inflectional) false false))
            c (Node.exclude (Node.terminal "abc".toList (some TermForm.Inflectional) true false) &&
               Node.exclude (Node.terminal "def".toList (some TermForm.Inflectional) false false))
            false)) :=
  claim_C4_exclude_combination_and_swap.1 _ _ (some ConjunctionType.And)
    false false true _ _ rfl rfl
    (by intro h; exact absurd h (by decide))

/-- C10 (implicit): `isInvalidWithNear` inspects only the node variant and the
`Literal` form, never the `exclude` flag, so an excluded Literal terminal is
accepted as a NEAR operand; `transform("+abc near -\"def\"")` therefore
produces a NEAR conjunction with a negated operand. -/
theorem claim_C10_near_accepts_excluded_literal :
    (∀ (term : List Char) (e g : Bool),
      isInvalidWithNear
        (.node (Node.terminal term (some TermForm.Literal) e g)) = false) ∧
    transform [] ("+abc near -\"def\"".toList) =
      ("\"abc\" NEAR NOT \"def\"").toList := by
  constructor
  · intro term e g
    rfl
  · decide

/-- C7: with the cursor at an opening delimiter, `extractBlock` returns the
characters strictly between it and the matching closing delimiter at the same
nesting depth (quoted text being transparent to depth counting), leaves the
cursor at that closing delimiter, or at end-of-text when unmatched, returning
everything seen, and never past the end; concretely the block
`(a "b)c" d)` extracts the interior `a "b)c" d` as one group, and nesting is
respected in `(a (b) c)`. -/
theorem claim_C7_extract_block (t : List Char) (i : Nat) (oc cc : Char)
    (hlt : i < t.length) (_hoc : t.getD i nullChar = oc) :
    (extractBlock ⟨t, i⟩ oc cc =
        ((t.drop (i + 1)).take (specBlockScan oc cc 1 (t.drop (i + 1))),
          ⟨t, i + 1 + specBlockScan oc cc 1 (t.drop (i + 1))⟩) ∧
      (i + 1 + specBlockScan oc cc 1 (t.drop (i + 1)) = t.length ∨
        t.getD (i + 1 + specBlockScan oc cc 1 (t.drop (i + 1))) nullChar = cc) ∧
      i + 1 + specBlockScan oc cc 1 (t.drop (i + 1)) ≤ t.length) ∧
    extractBlock ⟨"(a \"b)c\" d)".toList, 0⟩ '(' ')' =
      ("a \"b)c\" d".toList, ⟨"(a \"b)c\" d)".toList, 10⟩) ∧
    extractBlock ⟨"(a (b) c)".toList, 0⟩ '(' ')' =
      ("a (b) c".toList, ⟨"(a (b) c)".toList, 8⟩) := by
  refine ⟨⟨?_, ?_, ?_⟩, ?_, ?_⟩
  · have hq : (⟨t, i⟩ : ParsingHelper).moveAhead 1 = ⟨t, i + 1⟩ := by
      simp [ParsingHelper.moveAhead]
      omega
    have hr := extractBlockLoopF_spec oc cc (t.length - (i + 1)) 1 t (i + 1)
      (by omega) (Nat.le_refl _) (Nat.le_refl _)
    show extractBlock ⟨t, i⟩ oc cc = _
    unfold extractBlock
    simp only [hq]
    rw [hr]
    simp only [ParsingHelper.extract]
    rw [show i + 1 + specBlockScan oc cc 1 (t.drop (i + 1)) - (i + 1) =
      specBlockScan oc cc 1 (t.drop (i + 1)) from by omega]
  · have hsl := specBlockScan_le oc cc 1 (t.drop (i + 1))
    simp only [List.length_drop] at hsl
    rcases specBlockScan_stop oc cc 1 (t.drop (i + 1)) with h | h
    · left
      simp only [List.length_drop] at h
      omega
    · right
      have hgd := getD_drop t (i + 1) (specBlockScan oc cc 1 (t.drop (i + 1)))
        nullChar
      rw [← hgd]
      exact h
  · have hsl := specBlockScan_le oc cc 1 (t.drop (i + 1))
    simp only [List.length_drop] at hsl
    omega
  · rfl
  · rfl

/-- Witness for C7 at the concrete input `(a "b)c" d)` with cursor 0. -/
theorem claim_C7_witness :
    (0 < ("(a \"b)c\" d)".toList : List Char).length ∧
      ("(a \"b)c\" d)".toList : List Char).getD 0 nullChar = '(') ∧
    extractBlock ⟨"(a \"b)c\" d)".toList, 0⟩ '(' ')' =
      ("a \"b)c\" d".toList, ⟨"(a \"b)c\" d)".toList, 10⟩) :=
  ⟨⟨by decide, by decide⟩,
    (claim_C7_extract_block "(a \"b)c\" d)".toList 0 '(' ')'
      (by decide) (by decide)).2.1⟩

/-- C6: `addNodeByString` creates no node exactly when the candidate term is
empty or a member of the injected stop-word list (the test is on the one term
argument, so it applies identically to quoted, wildcard, and bare terms);
consequently any whitespace-separated sequence of stop words transforms to
the empty string. -/
theorem claim_C6_stop_word_filter :
    (∀ (sw : List (List Char)) (root : NodeRef) (term : List Char)
      (tf : TermForm) (te : Bool) (cj : ConjunctionType),
      addNodeByString sw root term tf te cj = root ↔
        (term = [] ∨ isStopWord sw term = true)) ∧
    (∀ (sw : List (List Char)) (q : List Char),
      StopWordText sw q → transform sw q = []) := by
  constructor
  · intro sw root term tf te cj
    constructor
    · intro heq
      by_contra hcon
      push_neg at hcon
      obtain ⟨hne, hnsw⟩ := hcon
      have hnsw' : isStopWord sw term = false := by
        cases h : isStopWord sw term
        · rfl
        · exact absurd h hnsw
      have hlen : 0 < term.length := List.length_pos.mpr hne
      rw [addNodeByString, if_pos (by simp [hlen, hnsw'])] at heq
      cases root with
      | null =>
          simp only [addNode] at heq
          exact NodeRef.noConfusion heq
      | node r =>
          simp only [addNode] at heq
          have hinj : Node.internal (.node r)
              (.node ((Node.terminal term (some tf) te false).setGrouped false))
              (some cj) false false = r := by
            injection heq
          have hsz := congrArg sizeOf hinj
          simp at hsz
          omega
    · intro h
      rcases h with h | h
      · subst h
        rw [addNodeByString, if_neg (by simp)]
      · rw [addNodeByString, if_neg (by simp [h])]
  · intro sw q hswt
    have hp : parseNode sw q ConjunctionType.And = .null := by
      rw [parseNode,
        parseNodeAux_stopWord sw (q.length + 1) ConjunctionType.And q 0
          (initState ConjunctionType.And) (Nat.zero_le _) (by omega) hswt]
      rfl
    rw [transform, hp]
    rfl

/-- Witness for C6 at the concrete stop-word list `["the"]` and query
`"the the"`. -/
theorem claim_C6_witness :
    StopWordText ["the".toList] "the the".toList ∧
    transform ["the".toList] "the the".toList = [] := by
  have h1 : StopWordText ["the".toList] ("the".toList ++ ([] : List Char)) :=
    StopWordText.word "the".toList [] (by decide) (by decide) (by decide)
      (Or.inl rfl) StopWordText.nil
  have h2 : StopWordText ["the".toList] (' ' :: ("the".toList ++ [])) :=
    StopWordText.ws ' ' ("the".toList ++ []) (by decide) h1
  have h3 : StopWordText ["the".toList]
      ("the".toList ++ (' ' :: ("the".toList ++ []))) :=
    StopWordText.word "the".toList (' ' :: ("the".toList ++ []))
      (by decide) (by decide) (by decide)
      (Or.inr ⟨' ', "the".toList ++ [], rfl, by decide⟩) h2
  have hd : StopWordText ["the".toList] "the the".toList := h3
  exact ⟨hd, claim_C6_stop_word_filter.2 ["the".toList] "the the".toList hd⟩

set_option maxHeartbeats 2000000 in
/-- C8, counterexample: re-parsing the exact output of `transform` does not
preserve the set of (term, exclude) pairs.  For the query `~x` with no stop
words the output is `FORMSOF(THESAURUS, x)`, and re-parsing it turns the
rendering keyword `FORMSOF` into a search term: the pair `(FORMSOF, false)`
appears in the re-parsed structure but not in the original one. -/
theorem claim_C8_counterexample :
    ¬ (∀ (sw : List (List Char)) (q : List Char) (pr : List Char × Bool),
        pr ∈ queryTermPairs sw (transform sw q) ↔ pr ∈ queryTermPairs sw q) := by
  intro h
  have h2 := (h [] "~x".toList ("FORMSOF".toList, false)).mp (by decide)
  exact absurd h2 (by decide)

set_option maxHeartbeats 2000000 in
/-- C8 (amended): on the exhibited queries re-parsing the rendered output
only ever adds terms.  Every (term, exclude) pair of the original structure
is still present after the re-parse, while the rendering keywords (`FORMSOF`
with `THESAURUS` or `INFLECTIONAL`) show up as extra search terms, so the
claimed set equality fails. -/
theorem claim_C8_reparse_adds_terms :
    (∀ pr ∈ queryTermPairs [] ("~x".toList),
        pr ∈ queryTermPairs [] (transform [] "~x".toList)) ∧
    ("FORMSOF".toList, false) ∈ queryTermPairs [] (transform [] "~x".toList) ∧
    ¬ (("FORMSOF".toList, false) ∈ queryTermPairs [] ("~x".toList)) ∧
    (∀ pr ∈ queryTermPairs [] ("x".toList),
        pr ∈ queryTermPairs [] (transform [] "x".toList)) ∧
    ("INFLECTIONAL".toList, false) ∈ queryTermPairs [] (transform [] "x".toList) :=
  ⟨by decide, by decide, by decide, by decide, by decide⟩

/-- Witness for C8's preservation conjunct at the concrete pair `(x, false)`. -/
theorem claim_C8_witness :
    ("x".toList, false) ∈ queryTermPairs [] ("~x".toList) ∧
    ("x".toList, false) ∈ queryTermPairs [] (transform [] "~x".toList) :=
  ⟨by decide,
    claim_C8_reparse_adds_terms.1 ("x".toList, false) (by decide)⟩

end FullTextSearchQuery
